import Mathlib

/-!
Verification of the Cortex ingestion-filtering and hybrid-retrieval engine.

The definitions below are a shallow embedding of the TypeScript sources:
text is `List Char`, machine numbers are `Nat`/`Int`/`Rat`, fallible
operations return `Except`, and the file-system / embedding model are
abstracted as explicit inputs.  Each definition's doc comment names the
source function it embeds.  Definitions marked `Modelled from the spec:`
embed components (`database.ts`, `search.ts`) whose source files are not
part of the repository snapshot; they follow the specification's words.
-/

namespace Cortex

/-- Shorthand for JavaScript strings, embedded as character lists. -/
abbrev Str := List Char

theorem length_dropWhile_le' (p : α → Bool) (l : List α) :
    (l.dropWhile p).length ≤ l.length := by
  induction l with
  | nil => simp
  | cons a l ih =>
    by_cases h : p a
    · simp only [List.dropWhile, h]
      exact le_trans ih (Nat.le_succ _)
    · simp [List.dropWhile, h]

/-- JavaScript `\s` on the ASCII range (space, tab, newline, carriage
return, vertical tab, form feed).  The embedding restricts to ASCII
whitespace; the sources are only ever exercised on ASCII transcripts. -/
def isWsChar (c : Char) : Bool :=
  c = ' ' || c = '\t' || c = '\n' || c = '\r' || c = Char.ofNat 11 || c = Char.ofNat 12

/-- `String.prototype.trim`: drop whitespace from both ends. -/
def trimStr (s : Str) : Str :=
  ((s.dropWhile isWsChar).reverse.dropWhile isWsChar).reverse

/-- True when the list is nonempty and starts with a newline. -/
def headIsNl (s : Str) : Bool :=
  match s with
  | [] => false
  | c :: _ => c = '\n'

/-- `content.split(/\n\n+/)`: split on maximal runs of at least two
newlines.  `skip = true` while the separator's newline run is being
consumed; the accumulator holds the current piece reversed.  Structural
recursion on the string so that the definition evaluates by reduction. -/
def paraSplitGo : Bool → Str → Str → List Str
  | true, [], _ => [[]]
  | false, [], acc => [acc.reverse]
  | true, c :: rest, _ =>
    if c = '\n' then paraSplitGo true rest []
    else paraSplitGo false rest [c]
  | false, c :: rest, acc =>
    if c = '\n' && headIsNl rest then
      acc.reverse :: paraSplitGo true rest []
    else
      paraSplitGo false rest (c :: acc)

/-- Paragraph split of `extractChunks` (`config.ts`, archive module). -/
def paraSplit (s : Str) : List Str := paraSplitGo false s []

/-- Sentence boundary character of `/(?<=[.!?])\s+/`. -/
def isSentEnd (c : Char) : Bool := c = '.' || c = '!' || c = '?'

/-- True when the list is nonempty and starts with whitespace. -/
def headIsWs (s : Str) : Bool :=
  match s with
  | [] => false
  | c :: _ => isWsChar c

/-- `trimmed.split(/(?<=[.!?])\s+/)`: cut after `.`/`!`/`?` followed by a
whitespace run; the whitespace run is consumed (`skip = true` while it
is being consumed; after it, the next character can itself begin a new
cut).  Structural recursion on the string. -/
def sentSplitGo : Bool → Str → Str → List Str
  | true, [], _ => [[]]
  | false, [], acc => [acc.reverse]
  | true, c :: rest, _ =>
    if isWsChar c then sentSplitGo true rest []
    else if isSentEnd c && headIsWs rest then [c] :: sentSplitGo true rest []
    else sentSplitGo false rest [c]
  | false, c :: rest, acc =>
    if isSentEnd c && headIsWs rest then
      (c :: acc).reverse :: sentSplitGo true rest []
    else
      sentSplitGo false rest (c :: acc)

/-- Sentence split used by `extractChunks` for long paragraphs. -/
def sentSplit (s : Str) : List Str := sentSplitGo false s []

-- ===========================================================================
-- ContentExtractor (`extractTextContent` in config.ts, archive module)
-- ===========================================================================

/-- One element of a structured content array: a bare string, an object
with a string `text` attribute, an object whose `text` attribute is not a
string, an object without a `text` attribute, or any other JSON value. -/
inductive ContentItem where
  | strItem (s : Str)
  | objText (t : Str)
  | objTextNonString
  | objNoText
  | otherItem
deriving DecidableEq

/-- A transcript message's `content` field: a string, an array of parts,
or any other shape. -/
inductive Content where
  | str (s : Str)
  | arr (items : List ContentItem)
  | otherContent
deriving DecidableEq

/-- The `textParts` accumulation loop of `extractTextContent`: bare
strings and string-valued `text` attributes are pushed, in order. -/
def textPartsLoop : List ContentItem → List Str → List Str
  | [], acc => acc.reverse
  | ContentItem.strItem s :: rest, acc => textPartsLoop rest (s :: acc)
  | ContentItem.objText t :: rest, acc => textPartsLoop rest (t :: acc)
  | _ :: rest, acc => textPartsLoop rest acc

/-- `Array.prototype.join('\n')`. -/
def joinNl : List Str → Str
  | [] => []
  | [x] => x
  | x :: rest => x ++ '\n' :: joinNl rest

/-- `extractTextContent` (config.ts archive module, lines 322-344): a
string is returned unchanged; an array yields its collected text parts
joined by newlines; anything else yields the empty string. -/
def extractTextContent : Content → Str
  | Content.str s => s
  | Content.arr items => joinNl (textPartsLoop items [])
  | Content.otherContent => []

/-- The parts the code keeps from a content array: bare strings, and
objects whose `text` attribute is a string. -/
def keptText : ContentItem → Option Str
  | ContentItem.strItem s => some s
  | ContentItem.objText t => some t
  | _ => none

/-- The claim's reading of the extractor on sequences: keep exactly the
parts carrying a (string) `text` attribute; bare strings are not parts
carrying a `text` attribute and are dropped.  Stated from the spec's
words, for comparison against `extractTextContent`. -/
def specSeqExtract (items : List ContentItem) : Str :=
  joinNl (items.filterMap fun i =>
    match i with
    | ContentItem.objText t => some t
    | _ => none)

theorem textPartsLoop_eq (items : List ContentItem) (acc : List Str) :
    textPartsLoop items acc = acc.reverse ++ items.filterMap keptText := by
  induction items generalizing acc with
  | nil => simp [textPartsLoop]
  | cons i rest ih =>
    cases i <;> simp [textPartsLoop, keptText, ih, List.filterMap_cons]

-- ===========================================================================
-- Chunker (`extractChunks` in config.ts, archive module)
-- ===========================================================================

/-- `MIN_CONTENT_LENGTH` (config.ts archive module, line 233). -/
def MIN_CONTENT_LENGTH : Nat := 50

/-- The greedy sentence-accumulation loop of `extractChunks` for
paragraphs longer than 1000 characters: flush the accumulated chunk when
adding the next sentence would exceed 800 characters; sentences are
joined by a single space; flushes shorter than `MIN_CONTENT_LENGTH` are
dropped; the remainder is flushed at the end. -/
def splitLongGo : List Str → Str → List Str
  | [], cur => if MIN_CONTENT_LENGTH ≤ cur.length then [trimStr cur] else []
  | s :: rest, cur =>
    if cur.length + s.length > 800 then
      (if MIN_CONTENT_LENGTH ≤ cur.length then [trimStr cur] else []) ++ splitLongGo rest s
    else
      splitLongGo rest (if cur.isEmpty then s else cur ++ ' ' :: s)

/-- Long-paragraph split path of `extractChunks`, starting from the empty
accumulated chunk. -/
def splitLong (sentences : List Str) : List Str := splitLongGo sentences []

/-- Per-paragraph chunking of `extractChunks`: trim, discard short
paragraphs, split long paragraphs at sentence boundaries, keep the rest
whole. -/
def chunksOfPara (para : Str) : List Str :=
  let t := trimStr para
  if t.length < MIN_CONTENT_LENGTH then []
  else if t.length > 1000 then splitLong (sentSplit t)
  else [t]

/-- `extractChunks` (config.ts archive module, lines 389-427). -/
def extractChunks (content : Str) : List Str :=
  (paraSplit content).flatMap chunksOfPara

-- ===========================================================================
-- Filter (`shouldExclude` / `isValuable` in config.ts, archive module)
-- ===========================================================================

/-- ASCII lowercasing, for the case-insensitive regexes. -/
def toLowerStr (s : Str) : Str := s.map Char.toLower

/-- Whole-string match of an alternation followed by an optional dot,
as in `/^(ok|okay|...)\.?$/`. -/
def matchesWholeOptDot (words : List Str) (s : Str) : Bool :=
  words.any fun w => s = w || s = w ++ ['.']

/-- The acknowledgment alternation of `EXCLUDED_PATTERNS`. -/
def ackWords : List Str :=
  ["ok", "okay", "done", "yes", "no", "sure", "thanks", "thank you",
   "got it", "understood", "alright"].map String.toList

/-- The greeting alternation of `EXCLUDED_PATTERNS`. -/
def greetWords : List Str :=
  ["hello", "hi", "hey", "bye", "goodbye"].map String.toList

/-- `shouldExclude` (config.ts archive module, lines 353-369): trim, then
exclude when shorter than `MIN_CONTENT_LENGTH` or when the whole trimmed
string matches one of `EXCLUDED_PATTERNS`. -/
def shouldExclude (content : Str) : Bool :=
  let t := trimStr content
  if t.length < MIN_CONTENT_LENGTH then true
  else
    let lower := toLowerStr t
    matchesWholeOptDot ackWords lower ||
    matchesWholeOptDot greetWords lower ||
    (lower = "y".toList || lower = "yes".toList) ||
    (lower = "n".toList || lower = "no".toList) ||
    (!t.isEmpty && t.all Char.isDigit) ||
    (!t.isEmpty && t.all isSentEnd)

/-- JavaScript `\w`: ASCII letters, digits and underscore. -/
def isWordChar (c : Char) : Bool := c.isAlpha || c.isDigit || c = '_'

/-- True when the list is nonempty and starts with the given char. -/
def headIs (c : Char) (l : Str) : Bool :=
  match l with
  | [] => false
  | d :: _ => d = c

/-- True when the list is nonempty and starts with a word character. -/
def headIsWord (l : Str) : Bool :=
  match l with
  | [] => false
  | d :: _ => isWordChar d

/-- Does `p` hold at some position (suffix) of the string?  Used to embed
unanchored regex search. -/
def anyPos (p : Str → Bool) : Str → Bool
  | [] => p []
  | c :: rest => p (c :: rest) || anyPos p rest

/-- Match of `kw\s+\w` at the start of the list. -/
def kwWsWordAt (kw : Str) (l : Str) : Bool :=
  kw.isPrefixOf l &&
    (match l.drop kw.length with
     | [] => false
     | c :: r => isWsChar c && headIsWord (r.dropWhile isWsChar))

/-- Match of `kw\s+` at the start of the list. -/
def kwWsAt (kw : Str) (l : Str) : Bool :=
  kw.isPrefixOf l && headIsWs (l.drop kw.length)

/-- Match of `kw\s+\w+\s*=` at the start of the list (the `const`/`let`
declaration patterns). -/
def kwWsWordEqAt (kw : Str) (l : Str) : Bool :=
  kw.isPrefixOf l &&
    (match l.drop kw.length with
     | [] => false
     | c :: r =>
       isWsChar c &&
         (match r.dropWhile isWsChar with
          | [] => false
          | d :: r2 =>
            isWordChar d &&
              headIs '=' ((r2.dropWhile isWordChar).dropWhile isWsChar)))

/-- Substring (infix) search for one of several alternatives. -/
def containsAny (subs : List Str) (s : Str) : Bool :=
  subs.any fun sub => anyPos (fun l => sub.isPrefixOf l) s

/-- `content.split(/\s+/)`: split on whitespace runs, with empty pieces
at the ends when the string starts or ends with whitespace, as in
JavaScript. -/
def splitWsGo : Bool → Str → Str → List Str
  | true, [], _ => [[]]
  | false, [], acc => [acc.reverse]
  | true, c :: rest, _ =>
    if isWsChar c then splitWsGo true rest []
    else splitWsGo false rest [c]
  | false, c :: rest, acc =>
    if isWsChar c then acc.reverse :: splitWsGo true rest []
    else splitWsGo false rest (c :: acc)

/-- Whitespace split used by the word-count fallback of `isValuable`. -/
def splitWs (s : Str) : List Str := splitWsGo false s []

/-- `isValuable` (config.ts archive module, lines 374-384): true when any
of `VALUABLE_PATTERNS` matches, or the string has at least 10
whitespace-delimited pieces.  The `implemented?`, `created?`, ... regexes
make only their final `d` optional, so their substring searches look for
`implemente`, `create`, `adde`, `update`, `modifie`, `remove`. -/
def isValuable (content : Str) : Bool :=
  let lower := toLowerStr content
  anyPos (kwWsWordAt "function".toList) lower ||
  anyPos (kwWsWordAt "class".toList) lower ||
  anyPos (kwWsWordAt "interface".toList) lower ||
  anyPos (kwWsAt "import".toList) content ||
  anyPos (kwWsAt "export".toList) content ||
  anyPos (kwWsWordEqAt "const".toList) content ||
  anyPos (kwWsWordEqAt "let".toList) content ||
  anyPos (kwWsWordAt "def".toList) content ||
  containsAny (["error", "bug", "fix", "issue", "problem"].map String.toList) lower ||
  containsAny
    (["implemente", "create", "adde", "update", "modifie", "remove"].map String.toList) lower ||
  containsAny (["because", "since", "therefore", "however", "although"].map String.toList) lower ||
  10 ≤ (splitWs content).length

-- ===========================================================================
-- Edge-whitespace bookkeeping for the chunker proofs
-- ===========================================================================

/-- A piece is good when it is nonempty and carries no whitespace at
either end. -/
def GoodPiece (l : Str) : Prop :=
  l ≠ [] ∧ (∀ c, l.head? = some c → isWsChar c = false) ∧
    (∀ c, l.getLast? = some c → isWsChar c = false)

theorem dropWhile_eq_self_of_head (p : α → Bool) (l : List α)
    (h : ∀ c, l.head? = some c → p c = false) : l.dropWhile p = l := by
  cases l with
  | nil => rfl
  | cons a l =>
    have := h a (by simp)
    simp [List.dropWhile, this]

theorem head_dropWhile_false (p : α → Bool) (l : List α) (c : α)
    (h : (l.dropWhile p).head? = some c) : p c = false := by
  induction l with
  | nil => simp at h
  | cons a l ih =>
    by_cases hp : p a
    · exact ih (by simpa [List.dropWhile, hp] using h)
    · simp only [List.dropWhile, hp] at h
      simp only [Bool.false_eq_true, if_false, List.head?_cons, Option.some.injEq] at h
      exact h ▸ (by simpa using hp)

theorem getLast?_of_suffix {l₁ l₂ : List α} (h : l₁ <:+ l₂) (hne : l₁ ≠ []) :
    l₁.getLast? = l₂.getLast? := by
  obtain ⟨t, rfl⟩ := h
  rw [List.getLast?_append]
  cases hl : l₁.getLast? with
  | none => exact absurd (List.getLast?_eq_none_iff.mp hl) hne
  | some c => rfl

/-- Trimming never lengthens a string. -/
theorem trimStr_length_le (s : Str) : (trimStr s).length ≤ s.length := by
  unfold trimStr
  calc ((s.dropWhile isWsChar).reverse.dropWhile isWsChar).reverse.length
      = ((s.dropWhile isWsChar).reverse.dropWhile isWsChar).length := by
        rw [List.length_reverse]
    _ ≤ (s.dropWhile isWsChar).reverse.length := length_dropWhile_le' _ _
    _ = (s.dropWhile isWsChar).length := by rw [List.length_reverse]
    _ ≤ s.length := length_dropWhile_le' _ _

/-- A good piece is already trimmed. -/
theorem trimStr_eq_self {l : Str} (h : GoodPiece l) : trimStr l = l := by
  obtain ⟨-, hh, hl⟩ := h
  unfold trimStr
  rw [dropWhile_eq_self_of_head _ _ hh]
  rw [dropWhile_eq_self_of_head _ _ (fun c hc => hl c (by rwa [List.getLast?_eq_head?_reverse]))]
  exact List.reverse_reverse l

/-- The trim of any string has no whitespace at either end. -/
theorem trimStr_noEdge (s : Str) :
    (∀ c, (trimStr s).head? = some c → isWsChar c = false) ∧
      (∀ c, (trimStr s).getLast? = some c → isWsChar c = false) := by
  unfold trimStr
  constructor
  · intro c hc
    rw [List.head?_reverse] at hc
    have hsuff := List.dropWhile_suffix (l := (s.dropWhile isWsChar).reverse) isWsChar
    have hne : (s.dropWhile isWsChar).reverse.dropWhile isWsChar ≠ [] := by
      intro hnil
      rw [hnil] at hc; simp at hc
    rw [getLast?_of_suffix hsuff hne, List.getLast?_eq_head?_reverse, List.reverse_reverse] at hc
    exact head_dropWhile_false _ _ _ hc
  · intro c hc
    rw [List.getLast?_eq_head?_reverse, List.reverse_reverse] at hc
    exact head_dropWhile_false _ _ _ hc

theorem sentEnd_not_ws {c : Char} (h : isSentEnd c = true) : isWsChar c = false := by
  simp only [isSentEnd, Bool.or_eq_true, decide_eq_true_eq] at h
  rcases h with (h | h) | h <;> subst h <;> decide

theorem headIsWs_ne_nil {l : Str} (h : headIsWs l = true) : l ≠ [] := by
  cases l with
  | nil => simp [headIsWs] at h
  | cons a l => simp

theorem getLast?_cons_of_ne {c : α} {rest : List α} (h : rest ≠ []) :
    (c :: rest).getLast? = rest.getLast? := by
  cases rest with
  | nil => exact absurd rfl h
  | cons r rs => rw [List.getLast?_cons_cons]

/-- Every piece produced by the sentence split of a nonempty string with
no whitespace at either end is nonempty and has no whitespace at either
end (the separator consumes the whole whitespace run, and each cut ends
with a punctuation character).  In skip mode only the tail matters; in
accumulate mode the hypothesis speaks about the piece in progress
followed by the unread input. -/
theorem sentSplitGo_good (l : Str) :
    ∀ (skip : Bool) (acc : Str),
    (skip = true → l ≠ [] ∧ (∀ c, l.getLast? = some c → isWsChar c = false)) →
    (skip = false →
      acc.reverse ++ l ≠ [] ∧
      (∀ c, (acc.reverse ++ l).head? = some c → isWsChar c = false) ∧
      (∀ c, (acc.reverse ++ l).getLast? = some c → isWsChar c = false)) →
    ∀ p ∈ sentSplitGo skip l acc, GoodPiece p := by
  induction l with
  | nil =>
    intro skip acc hskip hmain p hp
    cases skip with
    | true => exact absurd rfl (hskip rfl).1
    | false =>
      obtain ⟨hne, hh, hl⟩ := hmain rfl
      simp only [sentSplitGo, List.mem_singleton] at hp
      subst hp
      simp only [List.append_nil] at hne hh hl
      exact ⟨hne, hh, hl⟩
  | cons c rest ih =>
    intro skip acc hskip hmain p hp
    cases skip with
    | true =>
      obtain ⟨-, hlast⟩ := hskip rfl
      rw [sentSplitGo] at hp
      by_cases hws : isWsChar c = true
      · rw [if_pos hws] at hp
        have hrne : rest ≠ [] := by
          intro h
          subst h
          have := hlast c (by simp)
          rw [hws] at this
          exact Bool.noConfusion this
        refine ih true [] (fun _ => ⟨hrne, ?_⟩) (by simp) p hp
        intro x hx
        exact hlast x ((getLast?_cons_of_ne hrne).symm ▸ hx)
      · rw [if_neg hws] at hp
        rw [Bool.not_eq_true] at hws
        by_cases hcut : (isSentEnd c && headIsWs rest) = true
        · rw [if_pos hcut, List.mem_cons] at hp
          simp only [Bool.and_eq_true] at hcut
          obtain ⟨hsent, hwsr⟩ := hcut
          have hrne : rest ≠ [] := headIsWs_ne_nil hwsr
          rcases hp with hp | hp
          · subst hp
            refine ⟨by simp, ?_, ?_⟩
            · intro x hx
              simp only [List.head?_cons, Option.some.injEq] at hx
              exact hx ▸ hws
            · intro x hx
              simp only [List.getLast?_singleton, Option.some.injEq] at hx
              exact hx ▸ hws
          · refine ih true [] (fun _ => ⟨hrne, ?_⟩) (by simp) p hp
            intro x hx
            exact hlast x ((getLast?_cons_of_ne hrne).symm ▸ hx)
        · rw [if_neg hcut] at hp
          refine ih false [c] (by simp) (fun _ => ⟨by simp, ?_, ?_⟩) p hp
          · intro x hx
            simp only [List.reverse_singleton, List.singleton_append, List.head?_cons,
              Option.some.injEq] at hx
            exact hx ▸ hws
          · intro x hx
            simp only [List.reverse_singleton, List.singleton_append] at hx
            exact hlast x hx
    | false =>
      obtain ⟨hne, hh, hl⟩ := hmain rfl
      rw [sentSplitGo] at hp
      by_cases hcut : (isSentEnd c && headIsWs rest) = true
      · rw [if_pos hcut, List.mem_cons] at hp
        simp only [Bool.and_eq_true] at hcut
        obtain ⟨hsent, hwsr⟩ := hcut
        have hrne : rest ≠ [] := headIsWs_ne_nil hwsr
        have hlast_rest : ∀ x, rest.getLast? = some x → isWsChar x = false := by
          intro x hx
          apply hl
          rw [List.getLast?_append, getLast?_cons_of_ne hrne, hx]
          rfl
        rcases hp with hp | hp
        · subst hp
          refine ⟨by simp, ?_, ?_⟩
          · intro c' hc'
            apply hh
            rw [List.reverse_cons, List.head?_append] at hc'
            rw [List.head?_append]
            simp only [List.head?_cons] at hc' ⊢
            exact hc'
          · intro c' hc'
            rw [List.reverse_cons, List.getLast?_concat] at hc'
            cases hc'
            exact sentEnd_not_ws hsent
        · exact ih true [] (fun _ => ⟨hrne, hlast_rest⟩) (by simp) p hp
      · rw [if_neg hcut] at hp
        have hrw : (c :: acc).reverse ++ rest = acc.reverse ++ c :: rest := by
          rw [List.reverse_cons, List.append_assoc]
          rfl
        refine ih false (c :: acc) (by simp) (fun _ => ?_) p hp
        rw [hrw]
        exact ⟨hne, hh, hl⟩

/-- Sentence split of a trimmed nonempty string: all pieces good. -/
theorem sentSplit_good (t : Str) (hne : t ≠ [])
    (hh : ∀ c, t.head? = some c → isWsChar c = false)
    (hl : ∀ c, t.getLast? = some c → isWsChar c = false) :
    ∀ p ∈ sentSplit t, GoodPiece p := by
  unfold sentSplit
  exact sentSplitGo_good t false [] (by simp) (fun _ => ⟨by simpa, by simpa, by simpa⟩)

/-- Joining two good pieces with a single space yields a good piece. -/
theorem goodPiece_join {a b : Str} (ha : GoodPiece a) (hb : GoodPiece b) :
    GoodPiece (a ++ ' ' :: b) := by
  obtain ⟨hane, hah, hal⟩ := ha
  obtain ⟨hbne, hbh, hbl⟩ := hb
  refine ⟨by simp, ?_, ?_⟩
  · intro c hc
    rw [List.head?_append] at hc
    cases hha : a.head? with
    | none => exact absurd (List.head?_eq_none_iff.mp hha) hane
    | some x =>
      rw [hha] at hc
      simp only [Option.or_some] at hc
      cases hc
      exact hah _ hha
  · intro c hc
    rw [List.getLast?_append] at hc
    have hcons : (' ' :: b).getLast? = b.getLast? := by
      cases b with
      | nil => exact absurd rfl hbne
      | cons y ys => rw [List.getLast?_cons_cons]
    rw [hcons] at hc
    cases hbl' : b.getLast? with
    | none => exact absurd (List.getLast?_eq_none_iff.mp hbl') hbne
    | some x =>
      rw [hbl'] at hc
      simp only [Option.or_some] at hc
      cases hc
      exact hbl _ hbl'

/-- Every chunk flushed by the greedy sentence accumulation either stays
within 801 characters (800 plus the single joining space) or is the trim
of a single sentence: a chunk exceeds 800 characters by no more than its
one trailing sentence. -/
theorem splitLongGo_bound (ss : List Str) (cur : Str) :
    ∀ c ∈ splitLongGo ss cur,
      c.length ≤ 801 ∨ (∃ s ∈ ss, c = trimStr s) ∨ c = trimStr cur := by
  induction ss generalizing cur with
  | nil =>
    intro c hc
    unfold splitLongGo at hc
    split at hc
    · right; right; simpa using hc
    · simp at hc
  | cons s rest ih =>
    intro c hc
    unfold splitLongGo at hc
    split at hc
    · rw [List.mem_append] at hc
      rcases hc with hc | hc
      · split at hc
        · right; right; simpa using hc
        · simp at hc
      · rcases ih s c hc with h | h | h
        · exact Or.inl h
        · obtain ⟨s', hs', he⟩ := h
          exact Or.inr (Or.inl ⟨s', List.mem_cons_of_mem _ hs', he⟩)
        · exact Or.inr (Or.inl ⟨s, List.mem_cons_self _ _, h⟩)
    · rcases ih _ c hc with h | h | h
      · exact Or.inl h
      · obtain ⟨s', hs', he⟩ := h
        exact Or.inr (Or.inl ⟨s', List.mem_cons_of_mem _ hs', he⟩)
      · rename_i hnotover
        split at h
        · exact Or.inr (Or.inl ⟨s, List.mem_cons_self _ _, h⟩)
        · left
          have hlen : (cur ++ ' ' :: s).length = cur.length + 1 + s.length := by
            simp [List.length_append]
            omega
          calc c.length ≤ (cur ++ ' ' :: s).length := h ▸ trimStr_length_le _
            _ = cur.length + 1 + s.length := hlen
            _ ≤ 801 := by omega

/-- When every sentence is good, every flushed chunk meets the built-in
minimum length: the length test happens before the trim, and the trim is
the identity on the accumulated chunk. -/
theorem splitLongGo_min (ss : List Str) (cur : Str)
    (hss : ∀ s ∈ ss, GoodPiece s) (hcur : cur = [] ∨ GoodPiece cur) :
    ∀ c ∈ splitLongGo ss cur, MIN_CONTENT_LENGTH ≤ c.length := by
  induction ss generalizing cur with
  | nil =>
    intro c hc
    unfold splitLongGo at hc
    split at hc
    · rename_i hmin
      simp only [List.mem_singleton] at hc
      subst hc
      have hcurne : cur ≠ [] := by
        intro h
        rw [h] at hmin
        simp [MIN_CONTENT_LENGTH] at hmin
      have hgood : GoodPiece cur := hcur.resolve_left hcurne
      rw [trimStr_eq_self hgood]
      exact hmin
    · simp at hc
  | cons s rest ih =>
    intro c hc
    unfold splitLongGo at hc
    have hss' : ∀ s' ∈ rest, GoodPiece s' := fun s' hs' => hss s' (List.mem_cons_of_mem _ hs')
    have hsgood : GoodPiece s := hss s (List.mem_cons_self _ _)
    split at hc
    · rw [List.mem_append] at hc
      rcases hc with hc | hc
      · split at hc
        · rename_i hmin
          simp only [List.mem_singleton] at hc
          subst hc
          have hcurne : cur ≠ [] := by
            intro h
            rw [h] at hmin
            simp [MIN_CONTENT_LENGTH] at hmin
          have hgood : GoodPiece cur := hcur.resolve_left hcurne
          rw [trimStr_eq_self hgood]
          exact hmin
        · simp at hc
      · exact ih s hss' (Or.inr hsgood) c hc
    · refine ih _ hss' ?_ c hc
      split
      · exact Or.inr hsgood
      · rename_i hne
        have hcurne : cur ≠ [] := by
          intro h
          rw [h] at hne
          simp at hne
        exact Or.inr (goodPiece_join (hcur.resolve_left hcurne) hsgood)

/-- Every chunk emitted by `extractChunks` has at least the built-in
minimum length `MIN_CONTENT_LENGTH = 50`. -/
theorem extractChunks_min (content : Str) :
    ∀ c ∈ extractChunks content, MIN_CONTENT_LENGTH ≤ c.length := by
  intro c hc
  unfold extractChunks at hc
  rw [List.mem_flatMap] at hc
  obtain ⟨para, hpara, hc⟩ := hc
  simp only [chunksOfPara] at hc
  split at hc
  · simp at hc
  · split at hc
    · rename_i hlen hlong
      have htne : trimStr para ≠ [] := by
        intro h
        rw [h] at hlong
        simp at hlong
      have hnoedge := trimStr_noEdge para
      have hgood := sentSplit_good (trimStr para) htne hnoedge.1 hnoedge.2
      exact splitLongGo_min _ [] hgood (Or.inl rfl) c hc
    · rename_i hlen hshort
      simp only [List.mem_singleton] at hc
      subst hc
      omega

-- ===========================================================================
-- Typed configuration (types.ts; config.ts configuration module)
-- ===========================================================================

/-- `StatuslineConfig` (types.ts). -/
structure StatuslineConfig where
  enabled : Bool
  showFragments : Bool
  showLastArchive : Bool
  showContext : Bool
  contextWarningThreshold : Nat
deriving DecidableEq

/-- `ArchiveConfig` (types.ts). -/
structure ArchiveConfig where
  autoOnCompact : Bool
  projectScope : Bool
  minContentLength : Nat
deriving DecidableEq

/-- `MonitorConfig` (types.ts). -/
structure MonitorConfig where
  tokenThreshold : Nat
deriving DecidableEq

/-- `Config` (types.ts). -/
structure Config where
  statusline : StatuslineConfig
  archive : ArchiveConfig
  monitor : MonitorConfig
deriving DecidableEq

/-- `DEFAULT_CONFIG` (config.ts configuration module, lines 15-37). -/
def DEFAULT_CONFIG : Config :=
  { statusline :=
      { enabled := true, showFragments := true, showLastArchive := true,
        showContext := true, contextWarningThreshold := 70 }
    archive := { autoOnCompact := true, projectScope := true, minContentLength := 50 }
    monitor := { tokenThreshold := 70 } }

/-- `ConfigPreset` (config.ts configuration module). -/
inductive ConfigPreset where
  | full
  | essential
  | minimal
deriving DecidableEq

/-- `CONFIG_PRESETS` (config.ts configuration module, lines 151-203); each
preset spells out all fields in the source. -/
def CONFIG_PRESETS : ConfigPreset → Config
  | ConfigPreset.full => DEFAULT_CONFIG
  | ConfigPreset.essential =>
    { statusline :=
        { enabled := true, showFragments := true, showLastArchive := false,
          showContext := true, contextWarningThreshold := 80 }
      archive := { autoOnCompact := true, projectScope := true, minContentLength := 100 }
      monitor := { tokenThreshold := 80 } }
  | ConfigPreset.minimal =>
    { statusline :=
        { enabled := false, showFragments := false, showLastArchive := false,
          showContext := false, contextWarningThreshold := 90 }
      archive := { autoOnCompact := false, projectScope := true, minContentLength := 50 }
      monitor := { tokenThreshold := 90 } }

-- ===========================================================================
-- Claim C7: content extraction
-- ===========================================================================

/-- What `extractTextContent` actually computes on each content shape:
strings unchanged, arrays keep bare string items and string-valued `text`
attributes in order joined by newlines, everything else is empty. -/
def extractAmended : Content → Str
  | Content.str s => s
  | Content.arr items => joinNl (items.filterMap keptText)
  | Content.otherContent => []

/-- C7 counterexample: a sequence containing a bare string item.  The
claim keeps only parts carrying a `text` attribute, so it predicts the
empty string; the code returns the bare string. -/
theorem extractTextContent_bare_string_counterexample :
    extractTextContent (Content.arr [ContentItem.strItem "hi".toList]) = "hi".toList ∧
    specSeqExtract [ContentItem.strItem "hi".toList] = [] ∧
    extractTextContent (Content.arr [ContentItem.strItem "hi".toList]) ≠
      specSeqExtract [ContentItem.strItem "hi".toList] := by
  refine ⟨rfl, rfl, ?_⟩
  decide

/-- C7 (corrected): `extractTextContent` is a pure function that returns
string content unchanged and, on a sequence, returns the text-bearing
parts in order joined by newlines — where the kept parts are the bare
string items together with the parts whose `text` attribute is a string;
other parts (objects without a string `text`, non-object non-string
items) are dropped silently, and any other content shape yields the
empty string. -/
theorem extractTextContent_spec (c : Content) :
    extractTextContent c = extractAmended c := by
  cases c with
  | str s => rfl
  | arr items =>
    simp only [extractTextContent, extractAmended, textPartsLoop_eq, List.reverse_nil,
      List.nil_append]
  | otherContent => rfl

-- ===========================================================================
-- Claim C3: chunk length bounds
-- ===========================================================================

/-- C3 counterexample: the chunker's minimum is the fixed
`MIN_CONTENT_LENGTH = 50`, not the configured minimum content length.
Under the `essential` preset the configured minimum is 100, yet the
chunker emits this 63-character paragraph as a chunk. -/
theorem extractChunks_configured_min_counterexample :
    (CONFIG_PRESETS ConfigPreset.essential).archive.minContentLength = 100 ∧
    extractChunks "A sample paragraph for the chunker test, sixty characters long.".toList =
      ["A sample paragraph for the chunker test, sixty characters long.".toList] ∧
    ("A sample paragraph for the chunker test, sixty characters long.".toList).length <
      (CONFIG_PRESETS ConfigPreset.essential).archive.minContentLength := by
  refine ⟨rfl, ?_, by decide⟩
  decide

/-- C3 (corrected): every chunk emitted by `extractChunks` has length at
least the chunker's built-in minimum `MIN_CONTENT_LENGTH = 50` (the
configured minimum is enforced later, in `archiveSession`, not by the
chunker); and on the long-paragraph split path every flushed chunk either
stays within 801 characters (800 plus the single joining space) or is
the trim of a single sentence — a chunk exceeds 800 characters by no
more than one trailing sentence. -/
theorem extractChunks_length_bounds (content : Str) :
    (∀ c ∈ extractChunks content, MIN_CONTENT_LENGTH ≤ c.length) ∧
    (∀ para ∈ paraSplit content, 1000 < (trimStr para).length →
      ∀ c ∈ splitLong (sentSplit (trimStr para)),
        c.length ≤ 801 ∨ ∃ s ∈ sentSplit (trimStr para), c = trimStr s) := by
  constructor
  · exact extractChunks_min content
  · intro para _ _ c hc
    rcases splitLongGo_bound (sentSplit (trimStr para)) [] c hc with h | h | h
    · exact Or.inl h
    · exact Or.inr h
    · left
      rw [h]
      simp [trimStr]

/-- Witness for the corrected C3 at a concrete 63-character paragraph:
the chunker emits it as a chunk of at least the built-in minimum. -/
theorem extractChunks_length_bounds_witness :
    "A sample paragraph for the chunker test, sixty characters long.".toList ∈
      extractChunks "A sample paragraph for the chunker test, sixty characters long.".toList ∧
    MIN_CONTENT_LENGTH ≤
      "A sample paragraph for the chunker test, sixty characters long.".toList.length :=
  ⟨by decide,
    (extractChunks_length_bounds
        "A sample paragraph for the chunker test, sixty characters long.".toList).1
      "A sample paragraph for the chunker test, sixty characters long.".toList (by decide)⟩

-- ===========================================================================
-- MemoryStore (`contentExists` / `insertMemory` of database.ts)
-- ===========================================================================

/-- One stored fragment (`Memory` in types.ts).  `E` is the embedding
type, kept abstract. -/
structure Frag (E : Type) where
  fid : Nat
  content : Str
  contentHash : Str
  embedding : E
  projectId : Option Str
  sourceSession : Str
  timestamp : Int
deriving DecidableEq

/-- The fragment table with its auto-increment id counter. -/
structure Store (E : Type) where
  frags : List (Frag E)
  nextId : Nat
deriving DecidableEq

/-- Modelled from the spec: `database.ts` is not in the repository
snapshot.  The content hash is a deterministic digest of the normalized
content, unique across the store; the spec fixes normalization as
exact-match-after-trim.  The digest is idealized as the trimmed content
itself (an injective digest). -/
def contentHashOf (c : Str) : Str := trimStr c

/-- Hash membership in the fragment table. -/
def hashMem (db : Store E) (h : Str) : Bool :=
  db.frags.any fun f => decide (f.contentHash = h)

/-- Modelled from the spec: `contentExists(content)` of `database.ts` —
true when a fragment with the same content hash already exists. -/
def contentExists (db : Store E) (c : Str) : Bool :=
  hashMem db (contentHashOf c)

/-- Modelled from the spec: `insertMemory` of `database.ts` — compute the
content hash; if present return `isDuplicate = true` without a new row,
otherwise append a fragment with a fresh id.  The check-and-insert is one
atomic unit of this purely functional store. -/
def insertMemory (db : Store E) (content : Str) (embedding : E) (projectId : Option Str)
    (sourceSession : Str) (timestamp : Int) : Store E × Bool :=
  if contentExists db content then (db, true)
  else
    ({ frags := db.frags ++
        [{ fid := db.nextId, content := content, contentHash := contentHashOf content,
           embedding := embedding, projectId := projectId,
           sourceSession := sourceSession, timestamp := timestamp }],
       nextId := db.nextId + 1 }, false)

-- ===========================================================================
-- Transcript parsing (`parseTranscript` in config.ts, archive module)
-- ===========================================================================

/-- Message role. -/
inductive Role where
  | user
  | assistant
  | system
  | otherRole
deriving DecidableEq

/-- A parsed transcript message (`TranscriptMessage` in types.ts); the
timestamp is embedded as milliseconds. -/
structure Msg where
  role : Role
  content : Str
  timestamp : Option Int
deriving DecidableEq

/-- The `type` field of the wrapped message format; the source accepts
`message`, `user` and `assistant`. -/
inductive WType where
  | message
  | user
  | assistant
  | otherType
deriving DecidableEq

/-- One line of a JSONL transcript: blank, unparsable, a direct message
object, or a wrapped message object. -/
inductive RawLine where
  | blank
  | malformed
  | direct (role : Role) (content : Content) (ts : Option Int)
  | wrapped (t : WType) (role : Role) (content : Content) (ts : Option Int)
deriving DecidableEq

/-- What the file system offers at a transcript path: no file, an
existing file whose read raises, or a readable sequence of lines. -/
inductive TData where
  | missing
  | unreadable
  | lines (ls : List RawLine)
deriving DecidableEq

/-- A transcript input: the path (used for the session id) and the file's
state. -/
structure Transcript where
  path : Str
  data : TData
deriving DecidableEq

/-- Per-line parsing of `parseTranscript`: blank and malformed lines are
skipped; both message formats keep a message exactly when the extracted
text is nonempty. -/
def parseLine : RawLine → Option Msg
  | RawLine.blank => none
  | RawLine.malformed => none
  | RawLine.direct role content ts =>
    let c := extractTextContent content
    if c.isEmpty then none else some ⟨role, c, ts⟩
  | RawLine.wrapped t role content ts =>
    if t = WType.otherType then none
    else
      let c := extractTextContent content
      if c.isEmpty then none else some ⟨role, c, ts⟩

/-- `parseTranscript` (config.ts archive module, lines 267-317): a
missing file yields the empty message list; reading an existing but
unreadable file raises past the function (the only guard in the source is
`existsSync`); otherwise lines are parsed individually, skipping
malformed ones. -/
def parseTranscript : TData → Except Unit (List Msg)
  | TData.missing => Except.ok []
  | TData.unreadable => Except.error ()
  | TData.lines ls => Except.ok (ls.filterMap parseLine)

-- ===========================================================================
-- Embedding batches (`embedBatch` in embeddings.ts)
-- ===========================================================================

/-- The passage marker prepended to stored content (source constant
PASSAGE_PREFIX in embeddings.ts). -/
def PASSAGE_TAG : Str := "passage: ".toList

/-- The query marker prepended to queries (source constant QUERY_PREFIX
in embeddings.ts). -/
def QUERY_TAG : Str := "query: ".toList

/-- Item-by-item embedding loop of `embedBatch` (embeddings.ts, lines
149-181).  `j` is the 1-based index of the current item, `n` the total
count, `bs` the batch size.  The source reports progress once per batch,
after the batch completes, with `min(i + batchSize, n)`; per item this is
a report of `(j, n)` exactly when `j` is a batch boundary (`j % bs = 0`)
or the final item (`j = n`).  A provider failure rejects immediately:
embeddings are discarded, and progress reports made before the failing
batch are kept.  Faithful for `bs ≥ 1` (the source loops forever when
`batchSize = 0`). -/
def embedBatchGo (prov : Str → Except ε E) (bs n : Nat) :
    List Str → Nat → Except ε (List E) × List (Nat × Nat)
  | [], _ => (Except.ok [], [])
  | t :: rest, j =>
    match prov t with
    | Except.error e => (Except.error e, [])
    | Except.ok v =>
      let r := embedBatchGo prov bs n rest (j + 1)
      (r.1.map (fun es => v :: es),
       (if j % bs = 0 || j = n then [(j, n)] else []) ++ r.2)

/-- `embedBatch` (embeddings.ts): prefix every text with the passage or
query marker, embed sequentially in batches of `bs` (source default 32),
and log the progress reports.  Returns the embeddings (or the first
provider error) together with the progress log. -/
def embedBatch (prov : Str → Except ε E) (texts : List Str) (bs : Nat := 32)
    (isQuery : Bool := false) : Except ε (List E) × List (Nat × Nat) :=
  let tag := if isQuery then QUERY_TAG else PASSAGE_TAG
  embedBatchGo prov bs texts.length (texts.map fun t => tag ++ t) 1

-- ===========================================================================
-- ArchivePipeline (`archiveSession` in config.ts, archive module)
-- ===========================================================================

/-- `ArchiveResult` (types.ts). -/
structure ArchiveResult where
  archived : Nat
  skipped : Nat
  duplicates : Nat
deriving DecidableEq

/-- Errors that abort an archive run: a transcript read failure, or an
embedding-provider failure. -/
inductive AErr (ε : Type) where
  | readFailed
  | embedFailed (e : ε)
deriving DecidableEq

/-- The chunk candidates of a run: the chunks of each assistant message,
in transcript order, paired with the message timestamp (archiveSession
lines 466-474). -/
def chunkCands (msgs : List Msg) : List (Str × Option Int) :=
  (msgs.filter fun m => decide (m.role = Role.assistant)).flatMap
    fun m => (extractChunks m.content).map fun c => (c, m.timestamp)

/-- The per-chunk filter phase of `archiveSession` (lines 474-503): count
a chunk as skipped when it fails the length, exclusion or value gate;
count it as a duplicate when its content already exists in the store (the
store is not modified during this phase); otherwise queue it for
archiving.  Returns (skipped, duplicates, queue). -/
def collectPhase (db : Store E) (minLen : Nat) :
    List (Str × Option Int) → Nat × Nat × List (Str × Option Int)
  | [] => (0, 0, [])
  | (c, ts) :: rest =>
    let r := collectPhase db minLen rest
    if c.length < minLen then (r.1 + 1, r.2.1, r.2.2)
    else if shouldExclude c then (r.1 + 1, r.2.1, r.2.2)
    else if !isValuable c then (r.1 + 1, r.2.1, r.2.2)
    else if contentExists db c then (r.1, r.2.1 + 1, r.2.2)
    else (r.1, r.2.1, (c, ts) :: r.2.2)

/-- The insert phase of `archiveSession` (lines 516-536): insert each
queued chunk with its embedding, in order, accumulating archived and
duplicate counts from the `isDuplicate` flag.  A chunk without a message
timestamp is stamped with the archive time `now`. -/
def insertPhase (sid : Str) (projectId : Option Str) (now : Int) :
    Store E → List ((Str × Option Int) × E) → Store E × Nat × Nat
  | db, [] => (db, 0, 0)
  | db, ((c, ts), e) :: rest =>
    let ins := insertMemory db c e projectId sid (ts.getD now)
    let r := insertPhase sid projectId now ins.1 rest
    if ins.2 then (r.1, r.2.1, r.2.2 + 1) else (r.1, r.2.1 + 1, r.2.2)

/-- `path.split('/').pop() || path` of `getSessionId`. -/
def basenameOf (path : Str) : Str :=
  let b := (path.reverse.takeWhile fun c => !decide (c = '/')).reverse
  if b.isEmpty then path else b

/-- `basename.replace(/\.[^.]+$/, '')`: strip a final dot-extension when
one exists (at least one non-dot character after the last dot). -/
def stripExt (b : Str) : Str :=
  let r := b.reverse
  let pre := r.takeWhile fun c => !decide (c = '.')
  if pre.length = r.length then b
  else if pre.isEmpty then b
  else (r.drop (pre.length + 1)).reverse

/-- `getSessionId` (config.ts archive module, lines 547-551). -/
def getSessionId (path : Str) : Str := stripExt (basenameOf path)

/-- The message-level body of `archiveSession` (lines 436-542), after the
transcript has been parsed: empty message list returns zero counts;
chunks are filtered and deduplicated against the unmodified store; when
nothing is queued the counts are returned without touching the store;
otherwise the queued texts are embedded as one batch (a provider failure
propagates) and inserted in order, and the final counts combine both
phases.  `minLen` is the caller-resolved
`config.archive.minContentLength || MIN_CONTENT_LENGTH`; `now` is the
archive time. -/
def archiveMsgs (prov : Str → Except ε E) (db : Store E) (minLen : Nat) (sid : Str)
    (projectId : Option Str) (now : Int) (msgs : List Msg) :
    Except ε (Store E × ArchiveResult) :=
  if msgs.isEmpty then Except.ok (db, ⟨0, 0, 0⟩)
  else if (collectPhase db minLen (chunkCands msgs)).2.2.isEmpty then
    Except.ok (db, ⟨0, (collectPhase db minLen (chunkCands msgs)).1,
      (collectPhase db minLen (chunkCands msgs)).2.1⟩)
  else
    match (embedBatch prov ((collectPhase db minLen (chunkCands msgs)).2.2.map Prod.fst)).1 with
    | Except.error e => Except.error e
    | Except.ok embs =>
      Except.ok ((insertPhase sid projectId now db
          ((collectPhase db minLen (chunkCands msgs)).2.2.zip embs)).1,
        ⟨(insertPhase sid projectId now db
            ((collectPhase db minLen (chunkCands msgs)).2.2.zip embs)).2.1,
          (collectPhase db minLen (chunkCands msgs)).1,
          (collectPhase db minLen (chunkCands msgs)).2.1 +
            (insertPhase sid projectId now db
              ((collectPhase db minLen (chunkCands msgs)).2.2.zip embs)).2.2⟩)

/-- `archiveSession` (config.ts archive module, lines 436-542): parse the
transcript (a read failure propagates), then run the message-level body;
an embedding failure propagates as `AErr.embedFailed`. -/
def archiveSession (prov : Str → Except ε E) (db : Store E) (minLen : Nat)
    (t : Transcript) (projectId : Option Str) (now : Int) :
    Except (AErr ε) (Store E × ArchiveResult) :=
  match parseTranscript t.data with
  | Except.error _ => Except.error AErr.readFailed
  | Except.ok msgs =>
    match archiveMsgs prov db minLen (getSessionId t.path) projectId now msgs with
    | Except.error e => Except.error (AErr.embedFailed e)
    | Except.ok r => Except.ok r

-- ===========================================================================
-- Pipeline lemmas
-- ===========================================================================

/-- The three filter gates of the archive loop as one predicate. -/
def passFilters (minLen : Nat) (c : Str) : Bool :=
  !decide (c.length < minLen) && !shouldExclude c && isValuable c

theorem collectPhase_eq (db : Store E) (minLen : Nat) (cands : List (Str × Option Int)) :
    collectPhase db minLen cands =
      (cands.countP fun x => !passFilters minLen x.1,
       cands.countP fun x => passFilters minLen x.1 && contentExists db x.1,
       cands.filter fun x => passFilters minLen x.1 && !contentExists db x.1) := by
  induction cands with
  | nil => rfl
  | cons x rest ih =>
    obtain ⟨c, ts⟩ := x
    by_cases h1 : c.length < minLen
    · simp [collectPhase, ih, h1, passFilters, List.countP_cons, List.filter_cons]
    · by_cases h2 : shouldExclude c = true
      · simp [collectPhase, ih, h1, h2, passFilters, List.countP_cons, List.filter_cons]
      · by_cases h3 : isValuable c = true
        · by_cases h4 : contentExists db c = true
          · simp [collectPhase, ih, h1, h2, h3, h4, passFilters, List.countP_cons,
              List.filter_cons]
          · simp [collectPhase, ih, h1, h2, h3, h4, passFilters, List.countP_cons,
              List.filter_cons]
        · simp [collectPhase, ih, h1, h2, h3, passFilters, List.countP_cons, List.filter_cons]

theorem countP_and_split (p q : α → Bool) (l : List α) :
    l.countP p = l.countP (fun a => p a && q a) + l.countP (fun a => p a && !q a) := by
  induction l with
  | nil => rfl
  | cons a l ih =>
    by_cases hp : p a
    · by_cases hq : q a <;> simp [List.countP_cons, hp, hq, ih] <;> omega
    · simp [List.countP_cons, hp, ih]

theorem countP_not_add (p : α → Bool) (l : List α) :
    l.countP (fun a => !p a) + l.countP p = l.length := by
  induction l with
  | nil => rfl
  | cons a l ih =>
    by_cases hp : p a <;> simp [List.countP_cons, hp] <;> omega

theorem insertPhase_counts (sid : Str) (proj : Option Str) (now : Int) (db : Store E)
    (l : List ((Str × Option Int) × E)) :
    (insertPhase sid proj now db l).2.1 + (insertPhase sid proj now db l).2.2 = l.length := by
  induction l generalizing db with
  | nil => rfl
  | cons x rest ih =>
    obtain ⟨⟨c, ts⟩, e⟩ := x
    simp only [insertPhase]
    split <;> simp only [List.length_cons] <;> rw [← ih (insertMemory db c e proj sid (ts.getD now)).1] <;> omega

theorem insertPhase_hashMem (sid : Str) (proj : Option Str) (now : Int) (db : Store E)
    (l : List ((Str × Option Int) × E)) (h : Str) :
    hashMem (insertPhase sid proj now db l).1 h =
      (hashMem db h || l.any fun x => decide (contentHashOf x.1.1 = h)) := by
  induction l generalizing db with
  | nil => simp [insertPhase]
  | cons x rest ih =>
    obtain ⟨⟨c, ts⟩, e⟩ := x
    simp only [insertPhase]
    by_cases hx : contentExists db c = true
    · rw [if_pos (by simp [insertMemory, hx])]
      have hst : (insertMemory db c e proj sid (ts.getD now)).1 = db := by
        simp [insertMemory, hx]
      rw [hst, ih]
      by_cases hh : contentHashOf c = h
      · have : hashMem db h = true := by
          rw [← hh]
          exact hx
        simp [this, hh]
      · simp [hh]
    · rw [if_neg (by simp [insertMemory, hx])]
      have hst : (insertMemory db c e proj sid (ts.getD now)).1 =
          { frags := db.frags ++
              [{ fid := db.nextId, content := c, contentHash := contentHashOf c,
                 embedding := e, projectId := proj, sourceSession := sid,
                 timestamp := ts.getD now }],
            nextId := db.nextId + 1 } := by
        simp [insertMemory, hx]
      rw [hst, ih]
      simp only [hashMem, List.any_append, List.any_cons, List.any_nil, List.any_eq_true]
      by_cases hh : contentHashOf c = h <;> simp [hh, Bool.or_assoc, Bool.or_comm]

theorem embedBatchGo_ok_length (prov : Str → Except ε E) (bs n : Nat) (l : List Str)
    (j : Nat) (es : List E) (hok : (embedBatchGo prov bs n l j).1 = Except.ok es) :
    es.length = l.length := by
  induction l generalizing j es with
  | nil =>
    simp only [embedBatchGo] at hok
    cases hok
    rfl
  | cons t rest ih =>
    simp only [embedBatchGo] at hok
    cases hpv : prov t with
    | error e => rw [hpv] at hok; exact absurd hok (by simp)
    | ok v =>
      rw [hpv] at hok
      simp only at hok
      cases hr : (embedBatchGo prov bs n rest (j + 1)).1 with
      | error e => rw [hr] at hok; simp [Except.map] at hok
      | ok es' =>
        rw [hr] at hok
        simp only [Except.map] at hok
        cases hok
        simp [ih (j + 1) es' hr]

theorem embedBatch_ok_length (prov : Str → Except ε E) (texts : List Str) (bs : Nat)
    (q : Bool) (es : List E) (hok : (embedBatch prov texts bs q).1 = Except.ok es) :
    es.length = texts.length := by
  unfold embedBatch at hok
  have := embedBatchGo_ok_length prov bs texts.length _ 1 es hok
  simpa using this

/-- Count accounting at the message level: a successful run's three
counters sum to the number of chunk candidates. -/
theorem archiveMsgs_counts (prov : Str → Except ε E) (db : Store E) (minLen : Nat)
    (sid : Str) (proj : Option Str) (now : Int) (msgs : List Msg) (st : Store E)
    (res : ArchiveResult)
    (hrun : archiveMsgs prov db minLen sid proj now msgs = Except.ok (st, res)) :
    res.archived + res.skipped + res.duplicates = (chunkCands msgs).length := by
  unfold archiveMsgs at hrun
  by_cases hemp : msgs.isEmpty
  · rw [if_pos hemp] at hrun
    cases hrun
    have : msgs = [] := by
      cases msgs with
      | nil => rfl
      | cons m ms => simp [List.isEmpty] at hemp
    subst this
    rfl
  · rw [if_neg hemp] at hrun
    have hcoll := collectPhase_eq db minLen (chunkCands msgs)
    set cands := chunkCands msgs with hcands
    set r := collectPhase db minLen cands with hr
    have hsum1 : r.1 = cands.countP fun x => !passFilters minLen x.1 := by rw [hcoll]
    have hsum2 : r.2.1 = cands.countP fun x => passFilters minLen x.1 && contentExists db x.1 := by
      rw [hcoll]
    have hsum3 : r.2.2 = cands.filter fun x => passFilters minLen x.1 && !contentExists db x.1 := by
      rw [hcoll]
    have hsplit : cands.countP (fun x => passFilters minLen x.1) =
        cands.countP (fun x => passFilters minLen x.1 && contentExists db x.1) +
          cands.countP (fun x => passFilters minLen x.1 && !contentExists db x.1) :=
      countP_and_split _ _ cands
    have hnot : cands.countP (fun x => !passFilters minLen x.1) +
        cands.countP (fun x => passFilters minLen x.1) = cands.length :=
      countP_not_add _ cands
    have hflt : (cands.filter fun x => passFilters minLen x.1 && !contentExists db x.1).length =
        cands.countP fun x => passFilters minLen x.1 && !contentExists db x.1 :=
      (List.countP_eq_length_filter _ _).symm
    have hlen : r.1 + (r.2.1 + r.2.2.length) = cands.length := by
      rw [hsum1, hsum2, hsum3, hflt]
      omega
    by_cases hta : r.2.2.isEmpty
    · rw [if_pos hta] at hrun
      cases hrun
      have hta0 : r.2.2.length = 0 := by
        cases hl : r.2.2 with
        | nil => rfl
        | cons a l => rw [hl] at hta; simp [List.isEmpty] at hta
      simp only
      omega
    · rw [if_neg hta] at hrun
      cases hemb : (embedBatch prov (r.2.2.map Prod.fst)).1 with
      | error e => rw [hemb] at hrun; exact absurd hrun (by simp)
      | ok embs =>
        rw [hemb] at hrun
        simp only at hrun
        cases hrun
        have hel : embs.length = r.2.2.length := by
          have := embedBatch_ok_length prov (r.2.2.map Prod.fst) 32 false embs hemb
          simpa using this
        have hzip : (r.2.2.zip embs).length = r.2.2.length := by
          rw [List.length_zip, hel]
          exact Nat.min_self _
        have hins := insertPhase_counts sid proj now db (r.2.2.zip embs)
        simp only
        omega

theorem chunkCands_length (msgs : List Msg) :
    (chunkCands msgs).length =
      ((msgs.filter fun m => decide (m.role = Role.assistant)).map
        fun m => (extractChunks m.content).length).sum := by
  unfold chunkCands
  rw [List.length_flatMap]
  congr 1
  simp [Function.comp]

-- ===========================================================================
-- Claim C2: count accounting invariant
-- ===========================================================================

/-- C2 (confirmed): for every archive run that returns an
`ArchiveResult`, `archived + skipped + duplicates` equals the number of
chunk candidates considered for the run — the total number of chunks
produced from the run's assistant messages; each chunk is counted in
exactly one of the three counters. -/
theorem archiveSession_count_invariant {ε E : Type} (prov : Str → Except ε E)
    (db : Store E) (minLen : Nat) (t : Transcript) (proj : Option Str) (now : Int)
    (msgs : List Msg) (st : Store E) (res : ArchiveResult)
    (hparse : parseTranscript t.data = Except.ok msgs)
    (hrun : archiveSession prov db minLen t proj now = Except.ok (st, res)) :
    res.archived + res.skipped + res.duplicates =
      ((msgs.filter fun m => decide (m.role = Role.assistant)).map
        fun m => (extractChunks m.content).length).sum := by
  unfold archiveSession at hrun
  rw [hparse] at hrun
  simp only at hrun
  cases harc : archiveMsgs prov db minLen (getSessionId t.path) proj now msgs with
  | error e => rw [harc] at hrun; simp at hrun
  | ok pr =>
    rw [harc] at hrun
    simp only [Except.ok.injEq] at hrun
    subst hrun
    rw [← chunkCands_length]
    exact archiveMsgs_counts prov db minLen (getSessionId t.path) proj now msgs st res harc

/-- Witness for C2 at a concrete two-message transcript: one valuable
chunk is archived and one low-value chunk is skipped; 1 + 1 + 0 matches
the two chunk candidates. -/
theorem archiveSession_count_invariant_witness :
    1 + 1 + 0 =
      ((([⟨Role.assistant,
            "We implemented the authentication flow because sessions expired.".toList, none⟩,
          ⟨Role.assistant,
            "aaaaaaaaaaaaaaaaaaaaaaaaaaaaaaaaaaaaaaaaaaaaaaaaaaaaaa".toList, none⟩] :
          List Msg).filter fun m => decide (m.role = Role.assistant)).map
        fun m => (extractChunks m.content).length).sum :=
  archiveSession_count_invariant (fun _ => (Except.ok () : Except Unit Unit))
    (⟨[], 0⟩ : Store Unit) 50
    ⟨"t.jsonl".toList,
      TData.lines
        [RawLine.direct Role.assistant
          (Content.str "We implemented the authentication flow because sessions expired.".toList)
          none,
         RawLine.direct Role.assistant
          (Content.str "aaaaaaaaaaaaaaaaaaaaaaaaaaaaaaaaaaaaaaaaaaaaaaaaaaaaaa".toList) none]⟩
    none 0 _
    (⟨[⟨0, "We implemented the authentication flow because sessions expired.".toList,
        "We implemented the authentication flow because sessions expired.".toList, (),
        none, "t".toList, 0⟩], 1⟩ : Store Unit)
    ⟨1, 1, 0⟩ rfl rfl

-- ===========================================================================
-- Claim C8: assistant-only sourcing
-- ===========================================================================

/-- C8 (confirmed): an archive run is unchanged when the non-assistant
messages are removed first — messages with role user or system never
produce chunks or fragments, never touch the store, and never affect the
archived, skipped or duplicate counters; every fragment inserted
originates from an assistant-authored message. -/
theorem archiveSession_assistant_only {ε E : Type} (prov : Str → Except ε E) (db : Store E)
    (minLen : Nat) (sid : Str) (proj : Option Str) (now : Int) (msgs : List Msg) :
    archiveMsgs prov db minLen sid proj now msgs =
      archiveMsgs prov db minLen sid proj now
        (msgs.filter fun m => decide (m.role = Role.assistant)) := by
  have hcands : chunkCands (msgs.filter fun m => decide (m.role = Role.assistant)) =
      chunkCands msgs := by
    unfold chunkCands
    rw [List.filter_filter]
    congr 1
    apply List.filter_congr
    intro m _
    simp
  by_cases hflt : (msgs.filter fun m => decide (m.role = Role.assistant)).isEmpty
  · have hfnil : (msgs.filter fun m => decide (m.role = Role.assistant)) = [] :=
      List.isEmpty_iff.mp hflt
    have hcnil : chunkCands msgs = [] := by
      rw [← hcands, hfnil]
      rfl
    unfold archiveMsgs
    rw [if_pos hflt]
    by_cases hemp : msgs.isEmpty
    · rw [if_pos hemp]
    · rw [if_neg hemp, hcnil]
      rw [if_pos (by rfl)]
      rfl
  · have hmne : ¬msgs.isEmpty := by
      intro h
      rw [List.isEmpty_iff.mp h] at hflt
      exact hflt rfl
    unfold archiveMsgs
    rw [if_neg hmne, if_neg hflt, hcands]

-- ===========================================================================
-- Claim C6: missing-transcript behavior
-- ===========================================================================

/-- C6 counterexample: a path naming an existing but unreadable file is
not a readable transcript file, yet `archiveSession` propagates the read
error instead of returning zero counts — the source only guards the
existence check. -/
theorem archiveSession_unreadable_counterexample :
    archiveSession (fun _ => (Except.ok () : Except Unit Unit)) (⟨[], 0⟩ : Store Unit) 50
        ⟨"t.jsonl".toList, TData.unreadable⟩ none 0 = Except.error AErr.readFailed ∧
    (Except.error AErr.readFailed :
        Except (AErr Unit) (Store Unit × ArchiveResult)) ≠
      Except.ok ((⟨[], 0⟩ : Store Unit), (⟨0, 0, 0⟩ : ArchiveResult)) := by
  refine ⟨rfl, ?_⟩
  simp

/-- C6 (corrected): for every path that names no existing file,
`archiveSession` returns `archived = skipped = duplicates = 0`, leaves
the store untouched and raises no error; for a path naming an existing
but unreadable file the read error propagates instead (see the
counterexample). -/
theorem archiveSession_missing_returns_zero {ε E : Type} (prov : Str → Except ε E)
    (db : Store E) (minLen : Nat) (path : Str) (proj : Option Str) (now : Int) :
    archiveSession prov db minLen ⟨path, TData.missing⟩ proj now =
      Except.ok (db, ⟨0, 0, 0⟩) := rfl

-- ===========================================================================
-- Claim C5: partial-count abort
-- ===========================================================================

/-- C5 counterexample: an embedding-provider failure during the
Embedding stage of a run with one archivable chunk makes `archiveSession`
reject with the provider's error; no `ArchiveResult` — and hence no
partial counts — is returned. -/
theorem archiveSession_embed_error_counterexample :
    archiveSession (fun _ => (Except.error () : Except Unit Unit)) (⟨[], 0⟩ : Store Unit) 50
        ⟨"t.jsonl".toList,
          TData.lines
            [RawLine.direct Role.assistant
              (Content.str
                "We implemented the authentication flow because sessions expired.".toList)
              none]⟩
        none 0 = Except.error (AErr.embedFailed ()) := rfl

/-- C5 (corrected): when the embedding provider fails, `archiveSession`
aborts the run by propagating the failure — it returns no counts at all
rather than the counts accumulated so far, and the store is left exactly
as it was.  A run that never reaches the Embedding stage (nothing to
parse, or no chunk surviving the filters) still returns its counts, with
`archived = 0` and the store unchanged. -/
theorem archiveSession_embed_error_propagates {ε E : Type} (e₀ : ε) (db : Store E)
    (minLen : Nat) (t : Transcript) (proj : Option Str) (now : Int) :
    archiveSession (fun _ => Except.error e₀) db minLen t proj now =
        Except.error AErr.readFailed ∨
    archiveSession (fun _ => Except.error e₀) db minLen t proj now =
        Except.error (AErr.embedFailed e₀) ∨
    ∃ res : ArchiveResult,
      archiveSession (fun _ => Except.error e₀) db minLen t proj now = Except.ok (db, res) ∧
      res.archived = 0 := by
  unfold archiveSession
  cases hp : parseTranscript t.data with
  | error e => left; rfl
  | ok msgs =>
    right
    simp only
    have harc : archiveMsgs (fun _ => Except.error e₀) db minLen (getSessionId t.path)
          proj now msgs = Except.error e₀ ∨
        ∃ res : ArchiveResult,
          archiveMsgs (fun _ => Except.error e₀) db minLen (getSessionId t.path)
            proj now msgs = Except.ok (db, res) ∧ res.archived = 0 := by
      unfold archiveMsgs
      by_cases hemp : msgs.isEmpty
      · rw [if_pos hemp]
        exact Or.inr ⟨⟨0, 0, 0⟩, rfl, rfl⟩
      · rw [if_neg hemp]
        by_cases hta :
            (collectPhase db minLen (chunkCands msgs)).2.2.isEmpty
        · rw [if_pos hta]
          exact Or.inr ⟨_, rfl, rfl⟩
        · rw [if_neg hta]
          left
          have hne : (collectPhase db minLen (chunkCands msgs)).2.2 ≠ [] := by
            intro h
            rw [h] at hta
            exact hta rfl
          have hemb : (embedBatch (fun _ => (Except.error e₀ : Except ε E))
              ((collectPhase db minLen (chunkCands msgs)).2.2.map Prod.fst)).1 =
              Except.error e₀ := by
            unfold embedBatch
            cases hl : (collectPhase db minLen (chunkCands msgs)).2.2 with
            | nil => exact absurd hl hne
            | cons x xs => rfl
          rw [hemb]
    rcases harc with h | ⟨res, hok, ha⟩
    · left
      rw [h]
    · right
      exact ⟨res, by rw [hok], ha⟩

-- ===========================================================================
-- Claim C1: dedup idempotence
-- ===========================================================================

/-- Rerunning the message-level archive body against the store produced
by a successful first run archives nothing: every chunk that passed the
filters the first time now hits the duplicate pre-check, so the second
result is `archived = 0`, the same skipped count, and one duplicate for
every chunk the first run either archived or already found duplicated. -/
theorem archiveMsgs_idem {ε E : Type} (prov : Str → Except ε E) (db : Store E)
    (minLen : Nat) (sid : Str) (proj : Option Str) (now : Int) (msgs : List Msg)
    (st₁ : Store E) (r₁ : ArchiveResult)
    (h1 : archiveMsgs prov db minLen sid proj now msgs = Except.ok (st₁, r₁)) :
    archiveMsgs prov st₁ minLen sid proj now msgs =
      Except.ok (st₁, ⟨0, r₁.skipped, r₁.archived + r₁.duplicates⟩) := by
  unfold archiveMsgs at h1 ⊢
  by_cases hemp : msgs.isEmpty
  · rw [if_pos hemp] at h1 ⊢
    simp only [Except.ok.injEq, Prod.mk.injEq] at h1
    obtain ⟨hdb, hres⟩ := h1
    subst hdb
    rw [← hres]
    rfl
  · rw [if_neg hemp] at h1 ⊢
    by_cases hta : (collectPhase db minLen (chunkCands msgs)).2.2.isEmpty
    · rw [if_pos hta] at h1
      simp only [Except.ok.injEq, Prod.mk.injEq] at h1
      obtain ⟨hdb, hres⟩ := h1
      subst hdb
      rw [if_pos hta, ← hres]
      simp
    · rw [if_neg hta] at h1
      cases hemb :
          (embedBatch prov ((collectPhase db minLen (chunkCands msgs)).2.2.map Prod.fst)).1 with
      | error e => rw [hemb] at h1; simp at h1
      | ok embs =>
        rw [hemb] at h1
        simp only [Except.ok.injEq, Prod.mk.injEq] at h1
        obtain ⟨hst, hres⟩ := h1
        have hcoll := collectPhase_eq db minLen (chunkCands msgs)
        have hta_eq : (collectPhase db minLen (chunkCands msgs)).2.2 =
            (chunkCands msgs).filter
              fun x => passFilters minLen x.1 && !contentExists db x.1 := by
          rw [hcoll]
        have hel : embs.length = (collectPhase db minLen (chunkCands msgs)).2.2.length := by
          simpa using
            embedBatch_ok_length prov
              ((collectPhase db minLen (chunkCands msgs)).2.2.map Prod.fst) 32 false embs hemb
        have hmono : ∀ h : Str, hashMem db h = true → hashMem st₁ h = true := by
          intro h hh
          rw [← hst, insertPhase_hashMem]
          simp [hh]
        have hqueued : ∀ x ∈ (collectPhase db minLen (chunkCands msgs)).2.2,
            hashMem st₁ (contentHashOf x.1) = true := by
          intro x hx
          rw [← hst, insertPhase_hashMem]
          have hmem : x ∈ List.map Prod.fst
              ((collectPhase db minLen (chunkCands msgs)).2.2.zip embs) := by
            rw [List.map_fst_zip _ _ (le_of_eq hel.symm)]
            exact hx
          obtain ⟨y, hy, hyx⟩ := List.mem_map.mp hmem
          have hany : ((collectPhase db minLen (chunkCands msgs)).2.2.zip embs).any
              (fun z => decide (contentHashOf z.1.1 = contentHashOf x.1)) = true := by
            rw [List.any_eq_true]
            refine ⟨y, hy, ?_⟩
            rw [hyx]
            simp
          simp [hany]
        have hpass : ∀ x ∈ chunkCands msgs, passFilters minLen x.1 = true →
            contentExists st₁ x.1 = true := by
          intro x hx hp
          by_cases hdup : contentExists db x.1 = true
          · exact hmono _ hdup
          · apply hqueued
            rw [hta_eq, List.mem_filter]
            refine ⟨hx, ?_⟩
            simp only [Bool.and_eq_true, Bool.not_eq_true']
            exact ⟨hp, by simpa using hdup⟩
        have hcoll2 := collectPhase_eq st₁ minLen (chunkCands msgs)
        have hta2 : (collectPhase st₁ minLen (chunkCands msgs)).2.2 = [] := by
          rw [hcoll2]
          rw [List.filter_eq_nil_iff]
          intro x hx
          by_cases hp : passFilters minLen x.1 = true
          · simp [hp, hpass x hx hp]
          · simp [Bool.and_eq_true]
            intro hp'
            exact absurd hp' hp
        have hs2 : (collectPhase st₁ minLen (chunkCands msgs)).1 =
            (collectPhase db minLen (chunkCands msgs)).1 := by
          rw [hcoll, hcoll2]
        have hd2 : (collectPhase st₁ minLen (chunkCands msgs)).2.1 =
            (collectPhase db minLen (chunkCands msgs)).2.1 +
              (collectPhase db minLen (chunkCands msgs)).2.2.length := by
          rw [hcoll, hcoll2]
          simp only
          have e1 : (chunkCands msgs).countP
                (fun x => passFilters minLen x.1 && contentExists st₁ x.1) =
              (chunkCands msgs).countP fun x => passFilters minLen x.1 := by
            apply List.countP_congr
            intro x hx
            by_cases hp : passFilters minLen x.1 = true
            · simp [hp, hpass x hx hp]
            · simp [hp]
          rw [e1, countP_and_split (fun x => passFilters minLen x.1)
            (fun x => contentExists db x.1) (chunkCands msgs)]
          rw [List.countP_eq_length_filter
            (fun x => passFilters minLen x.1 && !contentExists db x.1) (chunkCands msgs)]
        have hins := insertPhase_counts sid proj now db
          ((collectPhase db minLen (chunkCands msgs)).2.2.zip embs)
        have hzlen : ((collectPhase db minLen (chunkCands msgs)).2.2.zip embs).length =
            (collectPhase db minLen (chunkCands msgs)).2.2.length := by
          rw [List.length_zip, hel]
          exact Nat.min_self _
        rw [if_pos (by rw [hta2]; rfl)]
        rw [← hres]
        simp only [Except.ok.injEq, Prod.mk.injEq, ArchiveResult.mk.injEq]
        refine ⟨trivial, trivial, hs2, ?_⟩
        rw [hd2]
        omega

/-- C1 counterexample: a transcript whose assistant messages contain the
same valuable chunk twice.  The first run archives one fragment and
reports one duplicate (the intra-run repeat); the second run reports two
duplicates, not the first run's archived count of one. -/
theorem archiveSession_twice_counterexample :
    archiveSession (fun _ => (Except.ok () : Except Unit Unit)) (⟨[], 0⟩ : Store Unit) 50
        ⟨"t.jsonl".toList,
          TData.lines
            [RawLine.direct Role.assistant
              (Content.str
                "We implemented the authentication flow because sessions expired.".toList) none,
             RawLine.direct Role.assistant
              (Content.str
                "We implemented the authentication flow because sessions expired.".toList) none]⟩
        none 0 =
      Except.ok
        ((⟨[⟨0, "We implemented the authentication flow because sessions expired.".toList,
             "We implemented the authentication flow because sessions expired.".toList, (),
             none, "t".toList, 0⟩], 1⟩ : Store Unit), ⟨1, 0, 1⟩) ∧
    archiveSession (fun _ => (Except.ok () : Except Unit Unit))
        (⟨[⟨0, "We implemented the authentication flow because sessions expired.".toList,
            "We implemented the authentication flow because sessions expired.".toList, (),
            none, "t".toList, 0⟩], 1⟩ : Store Unit) 50
        ⟨"t.jsonl".toList,
          TData.lines
            [RawLine.direct Role.assistant
              (Content.str
                "We implemented the authentication flow because sessions expired.".toList) none,
             RawLine.direct Role.assistant
              (Content.str
                "We implemented the authentication flow because sessions expired.".toList) none]⟩
        none 0 =
      Except.ok
        ((⟨[⟨0, "We implemented the authentication flow because sessions expired.".toList,
             "We implemented the authentication flow because sessions expired.".toList, (),
             none, "t".toList, 0⟩], 1⟩ : Store Unit), ⟨0, 0, 2⟩) ∧
    (2 : Nat) ≠ 1 :=
  ⟨rfl, rfl, by decide⟩

/-- C1 (corrected): archiving the same transcript a second time against
the store produced by the first run returns `archived = 0`, the same
skipped count, and `duplicates` equal to the first run's archived count
PLUS the first run's duplicate count (these coincide with the archived
count exactly when the first run reported no duplicates); the store is
unchanged by the second run. -/
theorem archiveSession_dedup_idempotent {ε E : Type} (prov : Str → Except ε E)
    (db : Store E) (minLen : Nat) (t : Transcript) (proj : Option Str) (now : Int)
    (st₁ : Store E) (r₁ : ArchiveResult)
    (h1 : archiveSession prov db minLen t proj now = Except.ok (st₁, r₁)) :
    archiveSession prov st₁ minLen t proj now =
      Except.ok (st₁, ⟨0, r₁.skipped, r₁.archived + r₁.duplicates⟩) := by
  unfold archiveSession at h1 ⊢
  cases hp : parseTranscript t.data with
  | error e => rw [hp] at h1; simp at h1
  | ok msgs =>
    rw [hp] at h1
    simp only at h1 ⊢
    cases ha : archiveMsgs prov db minLen (getSessionId t.path) proj now msgs with
    | error e => rw [ha] at h1; simp at h1
    | ok pr =>
      rw [ha] at h1
      simp only [Except.ok.injEq] at h1
      subst h1
      rw [archiveMsgs_idem prov db minLen (getSessionId t.path) proj now msgs st₁ r₁ ha]

/-- Witness for the corrected C1 at a concrete transcript with one
archivable and one skipped chunk: the second run archives nothing and
reports the first run's single archived fragment as its one duplicate. -/
theorem archiveSession_dedup_idempotent_witness :
    archiveSession (fun _ => (Except.ok () : Except Unit Unit)) (⟨[], 0⟩ : Store Unit) 50
        ⟨"t.jsonl".toList,
          TData.lines
            [RawLine.direct Role.assistant
              (Content.str
                "We implemented the authentication flow because sessions expired.".toList) none,
             RawLine.direct Role.assistant
              (Content.str
                "aaaaaaaaaaaaaaaaaaaaaaaaaaaaaaaaaaaaaaaaaaaaaaaaaaaaaa".toList) none]⟩
        none 0 =
      Except.ok
        ((⟨[⟨0, "We implemented the authentication flow because sessions expired.".toList,
             "We implemented the authentication flow because sessions expired.".toList, (),
             none, "t".toList, 0⟩], 1⟩ : Store Unit), ⟨1, 1, 0⟩) ∧
    archiveSession (fun _ => (Except.ok () : Except Unit Unit))
        (⟨[⟨0, "We implemented the authentication flow because sessions expired.".toList,
            "We implemented the authentication flow because sessions expired.".toList, (),
            none, "t".toList, 0⟩], 1⟩ : Store Unit) 50
        ⟨"t.jsonl".toList,
          TData.lines
            [RawLine.direct Role.assistant
              (Content.str
                "We implemented the authentication flow because sessions expired.".toList) none,
             RawLine.direct Role.assistant
              (Content.str
                "aaaaaaaaaaaaaaaaaaaaaaaaaaaaaaaaaaaaaaaaaaaaaaaaaaaaaa".toList) none]⟩
        none 0 =
      Except.ok
        ((⟨[⟨0, "We implemented the authentication flow because sessions expired.".toList,
             "We implemented the authentication flow because sessions expired.".toList, (),
             none, "t".toList, 0⟩], 1⟩ : Store Unit), ⟨0, 1, 1⟩) :=
  ⟨rfl,
    archiveSession_dedup_idempotent (fun _ => (Except.ok () : Except Unit Unit))
      (⟨[], 0⟩ : Store Unit) 50
      ⟨"t.jsonl".toList,
        TData.lines
          [RawLine.direct Role.assistant
            (Content.str
              "We implemented the authentication flow because sessions expired.".toList) none,
           RawLine.direct Role.assistant
            (Content.str
              "aaaaaaaaaaaaaaaaaaaaaaaaaaaaaaaaaaaaaaaaaaaaaaaaaaaaaa".toList) none]⟩
      none 0
      (⟨[⟨0, "We implemented the authentication flow because sessions expired.".toList,
          "We implemented the authentication flow because sessions expired.".toList, (),
          none, "t".toList, 0⟩], 1⟩ : Store Unit)
      ⟨1, 1, 0⟩ rfl⟩

-- ===========================================================================
-- Claim C9: configuration merge (`deepMerge` / `loadConfig` in config.ts)
-- ===========================================================================

/-- A runtime JSON value, as produced by `JSON.parse` (no undefined). -/
inductive JVal where
  | null
  | jbool (b : Bool)
  | jnum (q : Rat)
  | jstr (s : String)
  | jarr (xs : List JVal)
  | jobj (fields : List (String × JVal))

/-- Property lookup on a JavaScript object, fields in insertion order. -/
def lookupF : List (String × JVal) → String → Option JVal
  | [], _ => none
  | (k', v) :: rest, k => if k' = k then some v else lookupF rest k

/-- Property assignment: overwrite in place, or append a new field. -/
def setF : List (String × JVal) → String → JVal → List (String × JVal)
  | [], k, v => [(k, v)]
  | (k', v') :: rest, k, v =>
    if k' = k then (k', v) :: rest else (k', v') :: setF rest k v

/-- Spreading an array into an object gives its elements under their
index keys (the `typeof targetValue === 'object'` test of `deepMerge`
also accepts arrays, and the recursive call then spreads them). -/
def arrToObj (xs : List JVal) : List (String × JVal) :=
  xs.enum.map fun p => (toString p.1, p.2)

mutual
/-- `deepMerge` (config.ts configuration module, lines 82-104): start
from a copy of the target and fold the source's fields over it. -/
def deepMerge (target source : List (String × JVal)) : List (String × JVal) :=
  deepMergeGo target target source

/-- The `for (const key of Object.keys(source))` loop of `deepMerge`:
`targetValue` is always read from the original target while the result
accumulates. -/
def deepMergeGo (target res : List (String × JVal)) :
    List (String × JVal) → List (String × JVal)
  | [] => res
  | (k, sv) :: rest => deepMergeGo target (mergeStep target res k sv) rest

/-- One assignment of the `deepMerge` loop: recurse when the source value
is a non-array object and the target value is an object (or an array,
which the spread turns into an object); otherwise copy the source value —
including values at keys the target does not have. -/
def mergeStep (target res : List (String × JVal)) (k : String) (sv : JVal) :
    List (String × JVal) :=
  match sv, lookupF target k with
  | JVal.jobj so, some (JVal.jobj tv) => setF res k (JVal.jobj (deepMerge tv so))
  | JVal.jobj so, some (JVal.jarr txs) => setF res k (JVal.jobj (deepMerge (arrToObj txs) so))
  | _, _ => setF res k sv
end

/-- The JSON shape of `DEFAULT_CONFIG` (config.ts, lines 33-37). -/
def DEFAULT_CONFIG_JSON : List (String × JVal) :=
  [("statusline", JVal.jobj
      [("enabled", JVal.jbool true), ("showFragments", JVal.jbool true),
       ("showLastArchive", JVal.jbool true), ("showContext", JVal.jbool true),
       ("contextWarningThreshold", JVal.jnum 70)]),
   ("archive", JVal.jobj
      [("autoOnCompact", JVal.jbool true), ("projectScope", JVal.jbool true),
       ("minContentLength", JVal.jnum 50)]),
   ("monitor", JVal.jobj [("tokenThreshold", JVal.jnum 70)])]

/-- What the file system offers at the config path. -/
inductive ConfigFile where
  | missingFile
  | corrupt
  | json (o : List (String × JVal))

/-- `loadConfig` (config.ts configuration module, lines 109-124): missing
or unparsable files fall back to the defaults; otherwise the parsed
object is deep-merged onto `DEFAULT_CONFIG`. -/
def loadConfig : ConfigFile → List (String × JVal)
  | ConfigFile.missingFile => DEFAULT_CONFIG_JSON
  | ConfigFile.corrupt => DEFAULT_CONFIG_JSON
  | ConfigFile.json o => deepMerge DEFAULT_CONFIG_JSON o

theorem setF_lookup_same (o : List (String × JVal)) (k : String) (v : JVal) :
    lookupF (setF o k v) k = some v := by
  induction o with
  | nil => simp [setF, lookupF]
  | cons f rest ih =>
    obtain ⟨k', v'⟩ := f
    by_cases hk : k' = k
    · simp [setF, hk, lookupF]
    · simp [setF, hk, lookupF, ih]

theorem setF_lookup_other (o : List (String × JVal)) (k' k : String) (v : JVal)
    (hk : k' ≠ k) : lookupF (setF o k' v) k = lookupF o k := by
  induction o with
  | nil => simp [setF, lookupF, hk]
  | cons f rest ih =>
    obtain ⟨k'', v''⟩ := f
    by_cases hk2 : k'' = k'
    · subst hk2
      simp [setF, lookupF, hk]
    · simp [setF, hk2, lookupF, ih]

theorem mergeStep_of_target_none (target res : List (String × JVal)) (k : String)
    (sv : JVal) (htgt : lookupF target k = none) :
    mergeStep target res k sv = setF res k sv := by
  cases sv <;> simp [mergeStep, htgt]

theorem deepMergeGo_preserve (target res : List (String × JVal))
    (src : List (String × JVal)) (k : String) (hk : k ∉ src.map Prod.fst) :
    lookupF (deepMergeGo target res src) k = lookupF res k := by
  induction src generalizing res with
  | nil => simp [deepMergeGo]
  | cons f rest ih =>
    obtain ⟨k', sv⟩ := f
    simp only [List.map_cons, List.mem_cons] at hk
    push_neg at hk
    rw [deepMergeGo, ih _ hk.2]
    have hne : k' ≠ k := fun h => hk.1 h.symm
    cases hl : lookupF target k' with
    | none => rw [mergeStep_of_target_none target res k' sv hl, setF_lookup_other _ _ _ _ hne]
    | some tv =>
      cases sv <;> cases tv <;>
        simp [mergeStep, hl, setF_lookup_other _ _ _ _ hne]

/-- C9 counterexample: loading a config file containing a field that is
not part of the recognized configuration shape copies that field into the
merged result — `deepMerge` iterates over the source's keys and assigns
any key the recursion does not descend into, recognized or not. -/
theorem loadConfig_unknown_field_counterexample :
    lookupF (loadConfig (ConfigFile.json [("unknownField", JVal.jnum 1)])) "unknownField" =
      some (JVal.jnum 1) ∧
    lookupF DEFAULT_CONFIG_JSON "unknownField" = none := by
  constructor
  · simp [loadConfig, DEFAULT_CONFIG_JSON, deepMerge, deepMergeGo, mergeStep, lookupF, setF]
  · rfl

/-- C9 (corrected): the overlay of the on-disk JSON onto the compiled-in
defaults fills recognized fields recursively, but a source field whose
key the target does not have — in particular every unrecognized field of
the file — is copied verbatim into the resulting object, not ignored
(the static `Config` type does not remove it at runtime). -/
theorem deepMerge_unknown_field_copied (target src : List (String × JVal)) (k : String)
    (v : JVal) (hmem : (k, v) ∈ src) (hnodup : (src.map Prod.fst).Nodup)
    (htgt : lookupF target k = none) :
    lookupF (deepMerge target src) k = some v := by
  unfold deepMerge
  have main : ∀ res : List (String × JVal), ∀ src' : List (String × JVal),
      (k, v) ∈ src' → (src'.map Prod.fst).Nodup →
      lookupF (deepMergeGo target res src') k = some v := by
    intro res src' hmem' hnodup'
    induction src' generalizing res with
    | nil => simp at hmem'
    | cons f rest ih =>
      obtain ⟨k', sv⟩ := f
      simp only [List.map_cons, List.nodup_cons] at hnodup'
      rcases List.mem_cons.mp hmem' with heq | hmem''
      · injection heq with hk hv
        subst hk
        subst hv
        rw [deepMergeGo]
        rw [deepMergeGo_preserve target _ rest k hnodup'.1]
        rw [mergeStep_of_target_none target res k v htgt]
        exact setF_lookup_same res k v
      · rw [deepMergeGo]
        exact ih _ hmem'' hnodup'.2
  exact main target src hmem hnodup

/-- Witness for the corrected C9: the concrete unknown field of the
counterexample, through the general theorem. -/
theorem deepMerge_unknown_field_copied_witness :
    lookupF (deepMerge DEFAULT_CONFIG_JSON [("unknownField", JVal.jnum 1)]) "unknownField" =
      some (JVal.jnum 1) :=
  deepMerge_unknown_field_copied DEFAULT_CONFIG_JSON [("unknownField", JVal.jnum 1)]
    "unknownField" (JVal.jnum 1) (by simp) (by simp) rfl

-- ===========================================================================
-- Claim C10: batch embedding shape and progress
-- ===========================================================================

theorem embedBatchGo_total_ok {ε E : Type} (pipe : Str → E) (bs n : Nat) (l : List Str)
    (j : Nat) :
    (embedBatchGo (fun t => (Except.ok (pipe t) : Except ε E)) bs n l j).1 =
      Except.ok (l.map pipe) := by
  induction l generalizing j with
  | nil => rfl
  | cons t rest ih => simp [embedBatchGo, ih, Except.map]

theorem embedBatchGo_log_bounds {ε E : Type} (pipe : Str → E) (bs n : Nat) (l : List Str)
    (j : Nat) (hinv : j + l.length = n + 1) :
    ∀ p ∈ (embedBatchGo (fun t => (Except.ok (pipe t) : Except ε E)) bs n l j).2,
      p.1 ≤ p.2 ∧ p.2 = n := by
  induction l generalizing j with
  | nil => simp [embedBatchGo]
  | cons t rest ih =>
    intro p hp
    simp only [embedBatchGo, List.mem_append] at hp
    rcases hp with hp | hp
    · have hj : j ≤ n := by
        simp only [List.length_cons] at hinv
        omega
      split at hp
      · simp only [List.mem_singleton] at hp
        subst hp
        exact ⟨hj, rfl⟩
      · simp at hp
    · refine ih (j + 1) ?_ p hp
      simp only [List.length_cons] at hinv
      omega

theorem embedBatchGo_log_last {ε E : Type} (pipe : Str → E) (bs n : Nat) (l : List Str)
    (j : Nat) (hne : l ≠ []) (hinv : j + l.length = n + 1) :
    (embedBatchGo (fun t => (Except.ok (pipe t) : Except ε E)) bs n l j).2.getLast? =
      some (n, n) := by
  induction l generalizing j with
  | nil => exact absurd rfl hne
  | cons t rest ih =>
    by_cases hr : rest = []
    · subst hr
      have hj : j = n := by
        simp only [List.length_cons, List.length_nil] at hinv
        omega
      subst hj
      simp [embedBatchGo]
    · have hinv' : (j + 1) + rest.length = n + 1 := by
        simp only [List.length_cons] at hinv
        omega
      have hlast := ih (j + 1) hr hinv'
      have hlne : (embedBatchGo (fun t => (Except.ok (pipe t) : Except ε E)) bs n rest
          (j + 1)).2 ≠ [] := by
        intro h
        rw [h] at hlast
        simp at hlast
      simp only [embedBatchGo, List.getLast?_append]
      rw [hlast]
      rfl

/-- C10 (confirmed): for every nonempty list of input texts, `embedBatch`
with a total provider returns exactly one embedding per input text, in
input order (each text embedded with its passage or query marker); every
progress report satisfies `completed ≤ total` with `total` the number of
input texts; and the final report is `(total, total)`. -/
theorem embedBatch_shape_progress {ε E : Type} (pipe : Str → E) (texts : List Str)
    (isQuery : Bool) (hne : texts ≠ []) :
    (embedBatch (fun t => (Except.ok (pipe t) : Except ε E)) texts 32 isQuery).1 =
      Except.ok (texts.map fun t => pipe ((if isQuery then QUERY_TAG else PASSAGE_TAG) ++ t)) ∧
    (∀ p ∈ (embedBatch (fun t => (Except.ok (pipe t) : Except ε E)) texts 32 isQuery).2,
      p.1 ≤ p.2 ∧ p.2 = texts.length) ∧
    (embedBatch (fun t => (Except.ok (pipe t) : Except ε E)) texts 32 isQuery).2.getLast? =
      some (texts.length, texts.length) := by
  refine ⟨?_, ?_, ?_⟩
  · simp only [embedBatch]
    rw [embedBatchGo_total_ok, List.map_map]
    rfl
  · simp only [embedBatch]
    exact embedBatchGo_log_bounds pipe 32 texts.length _ 1 (by simp [Nat.add_comm])
  · simp only [embedBatch]
    refine embedBatchGo_log_last pipe 32 texts.length _ 1 ?_ (by simp [Nat.add_comm])
    simpa using hne

/-- Witness for C10 on a concrete two-text batch. -/
theorem embedBatch_shape_progress_witness :
    (["ab".toList, "cd".toList] ≠ ([] : List Str)) ∧
    ((embedBatch (fun t => (Except.ok t : Except Unit Str)) ["ab".toList, "cd".toList] 32
          false).1 =
        Except.ok (["ab".toList, "cd".toList].map fun t =>
          (if false then QUERY_TAG else PASSAGE_TAG) ++ t) ∧
      (∀ p ∈ (embedBatch (fun t => (Except.ok t : Except Unit Str)) ["ab".toList, "cd".toList]
            32 false).2,
        p.1 ≤ p.2 ∧ p.2 = ["ab".toList, "cd".toList].length) ∧
      (embedBatch (fun t => (Except.ok t : Except Unit Str)) ["ab".toList, "cd".toList] 32
            false).2.getLast? =
        some (["ab".toList, "cd".toList].length, ["ab".toList, "cd".toList].length)) :=
  ⟨by decide,
    embedBatch_shape_progress (fun t => t) ["ab".toList, "cd".toList] false (by decide)⟩

-- ===========================================================================
-- Claim C4: RankFusion / SearchService (hybrid ranking)
-- ===========================================================================

/-- Modelled from the spec: `search.ts` is not in the repository
snapshot.  Reciprocal-rank-fusion score accumulation: add a contribution
to a fragment's running score, inserting the fragment when absent. -/
def rrfAdd (acc : List (Nat × Rat)) (i : Nat) (c : Rat) : List (Nat × Rat) :=
  match acc with
  | [] => [(i, c)]
  | (j, s) :: rest => if j = i then (j, s + c) :: rest else (j, s) :: rrfAdd rest i c

/-- Modelled from the spec: fold one ranked list into the score map,
`pos` being the 1-indexed rank of the list's head; the contribution at
rank `r` is `1 / (60 + r)` (RRF constant `k = 60`). -/
def rrfList (acc : List (Nat × Rat)) : List Nat → Nat → List (Nat × Rat)
  | [], _ => acc
  | i :: rest, pos => rrfList (rrfAdd acc i (1 / (60 + (pos : Rat)))) rest (pos + 1)

/-- Modelled from the spec: the fused base scores of a query — the
vector ranking folded in first, then the keyword ranking, both from
rank 1. -/
def rrfScores (vecList kwList : List Nat) : List (Nat × Rat) :=
  rrfList (rrfList [] vecList 1) kwList 1

/-- 0-based index of a fragment id in a ranked list, if present. -/
def idxOf? : List Nat → Nat → Option Nat
  | [], _ => none
  | j :: rest, i => if j = i then some 0 else (idxOf? rest i).map (fun k => k + 1)

/-- The claim's declarative contribution of one ranked list: a fragment
at 1-indexed position `r` (0-based index `r - 1`) contributes
`1 / (60 + r)`, an absent fragment contributes nothing. -/
def rrfFrom (lst : List Nat) (i : Nat) : Rat :=
  match idxOf? lst i with
  | some k => 1 / (60 + ((k : Rat) + 1))
  | none => 0

theorem idxOf?_eq_none_iff (lst : List Nat) (i : Nat) :
    idxOf? lst i = none ↔ i ∉ lst := by
  induction lst with
  | nil => simp [idxOf?]
  | cons j rest ih =>
    by_cases hj : j = i
    · simp [idxOf?, hj]
    · have hij : ¬i = j := fun h => hj h.symm
      simp [idxOf?, hj, ih, hij]

/-- First score stored under a key (the only one when keys are nodup). -/
def getScore (acc : List (Nat × Rat)) (i : Nat) : Rat :=
  match acc with
  | [] => 0
  | (j, s) :: rest => if j = i then s else getScore rest i

theorem rrfAdd_getScore_same (acc : List (Nat × Rat)) (i : Nat) (c : Rat) :
    getScore (rrfAdd acc i c) i = getScore acc i + c := by
  induction acc with
  | nil => simp [rrfAdd, getScore]
  | cons p rest ih =>
    obtain ⟨j, s⟩ := p
    by_cases hj : j = i
    · simp [rrfAdd, hj, getScore]
    · simp [rrfAdd, hj, getScore, ih]

theorem rrfAdd_getScore_other (acc : List (Nat × Rat)) (i k : Nat) (c : Rat)
    (hk : k ≠ i) : getScore (rrfAdd acc i c) k = getScore acc k := by
  have hik : ¬i = k := fun h => hk h.symm
  induction acc with
  | nil => simp [rrfAdd, getScore, hik]
  | cons p rest ih =>
    obtain ⟨j, s⟩ := p
    by_cases hj : j = i
    · subst hj
      simp [rrfAdd, getScore, hik]
    · by_cases hjk : j = k
      · simp [rrfAdd, hj, getScore, hjk, hk]
      · simp [rrfAdd, hj, getScore, hjk, ih]

theorem rrfAdd_keys (acc : List (Nat × Rat)) (i : Nat) (c : Rat) :
    (rrfAdd acc i c).map Prod.fst =
      if i ∈ acc.map Prod.fst then acc.map Prod.fst else acc.map Prod.fst ++ [i] := by
  induction acc with
  | nil => simp [rrfAdd]
  | cons p rest ih =>
    obtain ⟨j, s⟩ := p
    by_cases hj : j = i
    · simp [rrfAdd, hj]
    · simp only [rrfAdd, if_neg hj, List.map_cons, List.mem_cons]
      rw [ih]
      by_cases hmem : i ∈ rest.map Prod.fst
      · rw [if_pos hmem, if_pos (Or.inr hmem)]
      · rw [if_neg hmem, if_neg (by rintro (h | h); exact hj h.symm; exact hmem h)]
        rfl

theorem rrfAdd_values_pos (acc : List (Nat × Rat)) (i : Nat) (c : Rat)
    (hacc : ∀ p ∈ acc, 0 < p.2) (hc : 0 < c) :
    ∀ p ∈ rrfAdd acc i c, 0 < p.2 := by
  induction acc with
  | nil =>
    intro p hp
    simp only [rrfAdd, List.mem_singleton] at hp
    subst hp
    exact hc
  | cons q rest ih =>
    obtain ⟨j, s⟩ := q
    intro p hp
    by_cases hj : j = i
    · simp only [rrfAdd, if_pos hj, List.mem_cons] at hp
      rcases hp with hp | hp
      · subst hp
        have := hacc (j, s) (List.mem_cons_self _ _)
        simp only at this ⊢
        positivity
      · exact hacc p (List.mem_cons_of_mem _ hp)
    · simp only [rrfAdd, if_neg hj, List.mem_cons] at hp
      rcases hp with hp | hp
      · subst hp
        exact hacc (j, s) (List.mem_cons_self _ _)
      · exact ih (fun q hq => hacc q (List.mem_cons_of_mem _ hq)) p hp

theorem rrfList_getScore_notmem (lst : List Nat) (acc : List (Nat × Rat)) (p : Nat)
    (i : Nat) (hi : i ∉ lst) : getScore (rrfList acc lst p) i = getScore acc i := by
  induction lst generalizing acc p with
  | nil => rfl
  | cons j rest ih =>
    simp only [List.mem_cons] at hi
    push_neg at hi
    rw [rrfList, ih _ _ hi.2, rrfAdd_getScore_other _ j i _ hi.1]

theorem rrfList_getScore_mem (lst : List Nat) (acc : List (Nat × Rat)) (p : Nat)
    (i : Nat) (k : Nat) (hnd : lst.Nodup) (hidx : idxOf? lst i = some k) :
    getScore (rrfList acc lst p) i = getScore acc i + 1 / (60 + ((p : Rat) + k)) := by
  induction lst generalizing acc p k with
  | nil => simp [idxOf?] at hidx
  | cons j rest ih =>
    simp only [List.nodup_cons] at hnd
    by_cases hj : j = i
    · rw [idxOf?, if_pos hj] at hidx
      cases hidx
      subst hj
      rw [rrfList, rrfList_getScore_notmem rest _ _ j hnd.1, rrfAdd_getScore_same]
      norm_num
    · rw [idxOf?, if_neg hj] at hidx
      cases hrest : idxOf? rest i with
      | none => rw [hrest] at hidx; simp at hidx
      | some k' =>
        rw [hrest] at hidx
        have hk : k = k' + 1 := by
          have : some (k' + 1) = some k := hidx
          cases this
          rfl
        subst hk
        rw [rrfList, ih _ _ k' hnd.2 hrest,
          rrfAdd_getScore_other _ j i _ (fun h => hj h.symm)]
        congr 1
        push_cast
        ring

theorem rrfList_keys_mem (lst : List Nat) (acc : List (Nat × Rat)) (p : Nat) (i : Nat) :
    i ∈ (rrfList acc lst p).map Prod.fst ↔ i ∈ acc.map Prod.fst ∨ i ∈ lst := by
  induction lst generalizing acc p with
  | nil => simp [rrfList]
  | cons j rest ih =>
    rw [rrfList, ih]
    rw [rrfAdd_keys]
    by_cases hmem : j ∈ acc.map Prod.fst
    · rw [if_pos hmem]
      constructor
      · rintro (h | h)
        · exact Or.inl h
        · exact Or.inr (List.mem_cons_of_mem _ h)
      · rintro (h | h)
        · exact Or.inl h
        · rcases List.mem_cons.mp h with h | h
          · subst h
            exact Or.inl hmem
          · exact Or.inr h
    · rw [if_neg hmem]
      simp only [List.mem_append, List.mem_singleton, List.mem_cons]
      tauto

theorem rrfList_keys_nodup (lst : List Nat) (acc : List (Nat × Rat)) (p : Nat)
    (h : (acc.map Prod.fst).Nodup) : ((rrfList acc lst p).map Prod.fst).Nodup := by
  induction lst generalizing acc p with
  | nil => exact h
  | cons j rest ih =>
    rw [rrfList]
    apply ih
    rw [rrfAdd_keys]
    by_cases hmem : j ∈ acc.map Prod.fst
    · rw [if_pos hmem]
      exact h
    · rw [if_neg hmem]
      simp [List.nodup_append, h, hmem]

theorem rrfList_values_pos (lst : List Nat) (acc : List (Nat × Rat)) (p : Nat)
    (hacc : ∀ x ∈ acc, 0 < x.2) : ∀ x ∈ rrfList acc lst p, 0 < x.2 := by
  induction lst generalizing acc p with
  | nil => exact hacc
  | cons j rest ih =>
    rw [rrfList]
    apply ih
    apply rrfAdd_values_pos _ _ _ hacc
    positivity

theorem getScore_of_mem (acc : List (Nat × Rat)) (j : Nat) (s : Rat)
    (hnd : (acc.map Prod.fst).Nodup) (hmem : (j, s) ∈ acc) : getScore acc j = s := by
  induction acc with
  | nil => simp at hmem
  | cons q rest ih =>
    obtain ⟨j', s'⟩ := q
    simp only [List.map_cons, List.nodup_cons] at hnd
    rcases List.mem_cons.mp hmem with heq | hmem'
    · injection heq with h1 h2
      subst h1
      subst h2
      simp [getScore]
    · have hne : j' ≠ j := by
        intro h
        subst h
        exact hnd.1 (List.mem_map.mpr ⟨(j', s), hmem', rfl⟩)
      rw [getScore, if_neg hne]
      exact ih hnd.2 hmem'

theorem rrfScores_keys_nodup (vecList kwList : List Nat) :
    ((rrfScores vecList kwList).map Prod.fst).Nodup := by
  unfold rrfScores
  exact rrfList_keys_nodup _ _ _ (rrfList_keys_nodup _ _ _ (by simp))

theorem rrfScores_keys_mem (vecList kwList : List Nat) (i : Nat) :
    i ∈ (rrfScores vecList kwList).map Prod.fst ↔ i ∈ vecList ∨ i ∈ kwList := by
  unfold rrfScores
  rw [rrfList_keys_mem, rrfList_keys_mem]
  simp

theorem rrfScores_values_pos (vecList kwList : List Nat) :
    ∀ x ∈ rrfScores vecList kwList, 0 < x.2 := by
  unfold rrfScores
  exact rrfList_values_pos _ _ _ (rrfList_values_pos _ _ _ (by simp))

theorem rrfScores_getScore (vecList kwList : List Nat) (hv : vecList.Nodup)
    (hk : kwList.Nodup) (i : Nat) (hi : i ∈ vecList ∨ i ∈ kwList) :
    getScore (rrfScores vecList kwList) i = rrfFrom vecList i + rrfFrom kwList i := by
  unfold rrfScores rrfFrom
  have hvecScore : getScore (rrfList [] vecList 1) i =
      match idxOf? vecList i with
      | some k => 1 / (60 + ((k : Rat) + 1))
      | none => 0 := by
    cases hvec : idxOf? vecList i with
    | some k =>
      rw [rrfList_getScore_mem vecList [] 1 i k hv hvec]
      simp only [getScore]
      push_cast
      ring_nf
    | none =>
      rw [rrfList_getScore_notmem vecList [] 1 i ((idxOf?_eq_none_iff _ _).mp hvec)]
      rfl
  cases hkw : idxOf? kwList i with
  | some k2 =>
    rw [rrfList_getScore_mem kwList _ 1 i k2 hk hkw, hvecScore]
    cases hvec : idxOf? vecList i <;> simp <;> ring
  | none =>
    rw [rrfList_getScore_notmem kwList _ 1 i ((idxOf?_eq_none_iff _ _).mp hkw), hvecScore]
    cases hvec : idxOf? vecList i with
    | some k => simp
    | none =>
      exact absurd hi (by
        push_neg
        exact ⟨(idxOf?_eq_none_iff _ _).mp hvec, (idxOf?_eq_none_iff _ _).mp hkw⟩)

/-- Modelled from the spec: the decidable rank comparator of the search
service, stated over exact rationals.  `scoreLtB b₁ a₁ b₂ a₂` decides
whether the decayed score `b₁ * 2 ^ (-a₁ / 7)` is strictly below
`b₂ * 2 ^ (-a₂ / 7)` (for positive bases) by clearing the rational
exponent `(a₁ - a₂) / 7`: both sides are raised to its denominator, which
turns the comparison into one between rationals. -/
def scoreLtB (b₁ a₁ b₂ a₂ : ℚ) : Bool :=
  decide (b₁ ^ ((a₁ - a₂) / 7 : ℚ).den <
    b₂ ^ ((a₁ - a₂) / 7 : ℚ).den * (2 : ℚ) ^ ((a₁ - a₂) / 7 : ℚ).num)

theorem q_mul_den (e : ℚ) : e * (e.den : ℚ) = (e.num : ℚ) := by
  have hden : ((e.den : ℚ)) ≠ 0 := by
    exact_mod_cast e.den_nz
  have h := Rat.num_div_den e
  rw [div_eq_iff hden] at h
  exact h.symm

theorem scoreLtB_iff (b₁ a₁ b₂ a₂ : ℚ) (hb₁ : 0 < b₁) (hb₂ : 0 < b₂) :
    scoreLtB b₁ a₁ b₂ a₂ = true ↔
      (b₁ : ℝ) * (2 : ℝ) ^ (-(a₁ : ℝ) / 7) < (b₂ : ℝ) * (2 : ℝ) ^ (-(a₂ : ℝ) / 7) := by
  have h2 : (0:ℝ) < 2 := by norm_num
  have hx : (0:ℝ) < (2:ℝ) ^ (-(a₁ : ℝ) / 7) := Real.rpow_pos_of_pos h2 _
  set e : ℚ := (a₁ - a₂) / 7 with he
  have hcast : ((e : ℚ) : ℝ) = (-(a₂ : ℝ) / 7) - (-(a₁ : ℝ) / 7) := by
    rw [he]
    push_cast
    ring
  have step1 : (b₁ : ℝ) * (2 : ℝ) ^ (-(a₁ : ℝ) / 7) < (b₂ : ℝ) * (2 : ℝ) ^ (-(a₂ : ℝ) / 7) ↔
      (b₁ : ℝ) < (b₂ : ℝ) * (2 : ℝ) ^ ((e : ℚ) : ℝ) := by
    rw [hcast, Real.rpow_sub h2, ← mul_div_assoc, lt_div_iff₀ hx]
  have hdne : (e.den : ℕ) ≠ 0 := e.den_nz
  have hrpos : (0:ℝ) < (2 : ℝ) ^ ((e : ℚ) : ℝ) := Real.rpow_pos_of_pos h2 _
  have step2 : (b₁ : ℝ) < (b₂ : ℝ) * (2 : ℝ) ^ ((e : ℚ) : ℝ) ↔
      (b₁ : ℝ) ^ (e.den : ℕ) < ((b₂ : ℝ) * (2 : ℝ) ^ ((e : ℚ) : ℝ)) ^ (e.den : ℕ) := by
    rw [pow_lt_pow_iff_left₀ (by positivity) (by positivity) hdne]
  have step3 : ((b₂ : ℝ) * (2 : ℝ) ^ ((e : ℚ) : ℝ)) ^ (e.den : ℕ) =
      (b₂ : ℝ) ^ (e.den : ℕ) * (2 : ℝ) ^ (e.num : ℤ) := by
    rw [mul_pow, ← Real.rpow_natCast ((2 : ℝ) ^ ((e : ℚ) : ℝ)) e.den,
      ← Real.rpow_mul (le_of_lt h2)]
    congr 1
    rw [← Real.rpow_intCast 2 e.num]
    congr 1
    rw [show ((e : ℚ) : ℝ) * (e.den : ℝ) = (((e * e.den : ℚ)) : ℝ) by push_cast; ring,
      q_mul_den]
    push_cast
    ring
  have step4 : ((b₁ : ℝ) ^ (e.den : ℕ) < (b₂ : ℝ) ^ (e.den : ℕ) * (2 : ℝ) ^ (e.num : ℤ)) ↔
      (b₁ ^ e.den < b₂ ^ e.den * (2 : ℚ) ^ e.num) := by
    rw [show ((2:ℝ) ^ (e.num : ℤ)) = (((2:ℚ) ^ e.num : ℚ) : ℝ) by push_cast; ring]
    rw [← Rat.cast_pow, ← Rat.cast_pow, ← Rat.cast_mul, Rat.cast_lt]
  rw [scoreLtB, decide_eq_true_iff, ← he, ← step4, ← step3, ← step2, ← step1]

/-- Modelled from the spec: a search candidate — fragment id, timestamp
(in days), fused base score, and the fact that the base score of a
fragment appearing in at least one ranked list is positive. -/
structure Cand where
  cid : Nat
  cts : ℚ
  base : ℚ
  pos : 0 < base

/-- The claim's decayed-score comparison: `x`'s decayed score
`base * 2 ^ (-ageInDays / 7)` (with `ageInDays = now - timestamp` and
half-life 7 days) is strictly below `y`'s. -/
def scoreLtR (now : ℚ) (x y : Cand) : Prop :=
  (x.base : ℝ) * (2 : ℝ) ^ (-((now - x.cts : ℚ) : ℝ) / 7) <
    (y.base : ℝ) * (2 : ℝ) ^ (-((now - y.cts : ℚ) : ℝ) / 7)

/-- The two decayed scores coincide. -/
def scoreEqR (now : ℚ) (x y : Cand) : Prop :=
  (x.base : ℝ) * (2 : ℝ) ^ (-((now - x.cts : ℚ) : ℝ) / 7) =
    (y.base : ℝ) * (2 : ℝ) ^ (-((now - y.cts : ℚ) : ℝ) / 7)

/-- The claim's strict ranking order: `x` is ranked strictly before `y`
when its decayed score is higher, or the scores tie and `x`'s timestamp
is more recent, or both tie and `x`'s fragment id is lower. -/
def resultBefore (now : ℚ) (x y : Cand) : Prop :=
  scoreLtR now y x ∨
    (scoreEqR now x y ∧ (y.cts < x.cts ∨ (x.cts = y.cts ∧ x.cid < y.cid)))

/-- Decides equality of two decayed scores (for positive bases). -/
def scoreEqB (b₁ a₁ b₂ a₂ : ℚ) : Bool :=
  !scoreLtB b₁ a₁ b₂ a₂ && !scoreLtB b₂ a₂ b₁ a₁

/-- Modelled from the spec: the executable comparator the search service
sorts by — higher decayed score first, ties broken by more-recent
timestamp, then by lower fragment id. -/
def candBefore (now : ℚ) (x y : Cand) : Bool :=
  scoreLtB y.base (now - y.cts) x.base (now - x.cts) ||
    (scoreEqB x.base (now - x.cts) y.base (now - y.cts) &&
      (decide (y.cts < x.cts) || (decide (x.cts = y.cts) && decide (x.cid < y.cid))))

theorem scoreEqB_iff (b₁ a₁ b₂ a₂ : ℚ) (hb₁ : 0 < b₁) (hb₂ : 0 < b₂) :
    scoreEqB b₁ a₁ b₂ a₂ = true ↔
      (b₁ : ℝ) * (2 : ℝ) ^ (-(a₁ : ℝ) / 7) = (b₂ : ℝ) * (2 : ℝ) ^ (-(a₂ : ℝ) / 7) := by
  rw [scoreEqB, Bool.and_eq_true, Bool.not_eq_true', Bool.not_eq_true',
    ← Bool.not_eq_true, ← Bool.not_eq_true, scoreLtB_iff b₁ a₁ b₂ a₂ hb₁ hb₂,
    scoreLtB_iff b₂ a₂ b₁ a₁ hb₂ hb₁]
  constructor
  · rintro ⟨h1, h2⟩
    exact le_antisymm (not_lt.mp h2) (not_lt.mp h1)
  · intro h
    exact ⟨by rw [h]; exact lt_irrefl _, by rw [h]; exact lt_irrefl _⟩

theorem candBefore_iff (now : ℚ) (x y : Cand) :
    candBefore now x y = true ↔ resultBefore now x y := by
  rw [candBefore, resultBefore, Bool.or_eq_true, Bool.and_eq_true, Bool.or_eq_true,
    Bool.and_eq_true, scoreLtB_iff y.base (now - y.cts) x.base (now - x.cts) y.pos x.pos,
    scoreEqB_iff x.base (now - x.cts) y.base (now - y.cts) x.pos y.pos,
    decide_eq_true_iff, decide_eq_true_iff, decide_eq_true_iff]
  rfl

theorem resultBefore_total (now : ℚ) (x y : Cand) :
    resultBefore now x y ∨ resultBefore now y x ∨
      (scoreEqR now x y ∧ x.cts = y.cts ∧ x.cid = y.cid) := by
  unfold resultBefore scoreLtR scoreEqR
  rcases lt_trichotomy ((x.base : ℝ) * (2 : ℝ) ^ (-((now - x.cts : ℚ) : ℝ) / 7))
      ((y.base : ℝ) * (2 : ℝ) ^ (-((now - y.cts : ℚ) : ℝ) / 7)) with hs | hs | hs
  · exact Or.inr (Or.inl (Or.inl hs))
  · rcases lt_trichotomy x.cts y.cts with ht | ht | ht
    · exact Or.inr (Or.inl (Or.inr ⟨hs.symm, Or.inl ht⟩))
    · rcases Nat.lt_trichotomy x.cid y.cid with hc | hc | hc
      · exact Or.inl (Or.inr ⟨hs, Or.inr ⟨ht, hc⟩⟩)
      · exact Or.inr (Or.inr ⟨hs, ht, hc⟩)
      · exact Or.inr (Or.inl (Or.inr ⟨hs.symm, Or.inr ⟨ht.symm, hc⟩⟩))
    · exact Or.inl (Or.inr ⟨hs, Or.inl ht⟩)
  · exact Or.inl (Or.inl hs)

theorem resultBefore_asymm (now : ℚ) (x y : Cand)
    (h : resultBefore now x y) : ¬ resultBefore now y x := by
  unfold resultBefore scoreLtR scoreEqR at h ⊢
  rcases h with h | ⟨hs, ht | ⟨hts, hc⟩⟩ <;>
    rintro (h' | ⟨hs', ht' | ⟨hts', hc'⟩⟩) <;>
    linarith

theorem resultBefore_trans (now : ℚ) (x y z : Cand)
    (hxy : resultBefore now x y) (hyz : resultBefore now y z) :
    resultBefore now x z := by
  unfold resultBefore scoreLtR scoreEqR at hxy hyz ⊢
  rcases hxy with h | ⟨hs, ht | ⟨hts, hc⟩⟩ <;>
    rcases hyz with h' | ⟨hs', ht' | ⟨hts', hc'⟩⟩
  · exact Or.inl (by linarith)
  · exact Or.inl (by linarith)
  · exact Or.inl (by linarith)
  · exact Or.inl (by linarith)
  · exact Or.inr ⟨by linarith, Or.inl (by linarith)⟩
  · exact Or.inr ⟨by linarith, Or.inl (by linarith)⟩
  · exact Or.inl (by linarith)
  · exact Or.inr ⟨by linarith, Or.inl (by linarith)⟩
  · exact Or.inr ⟨by linarith, Or.inr ⟨by linarith, by omega⟩⟩

/-- Non-strict ranking order used for sorting: `x` need not go after
`y`. -/
def candLe (now : ℚ) (x y : Cand) : Prop := candBefore now y x = false

instance candLeDecidable (now : ℚ) : DecidableRel (candLe now) :=
  fun x y => decidable_of_iff (candBefore now y x = false) Iff.rfl

theorem candLe_iff (now : ℚ) (x y : Cand) :
    candLe now x y ↔ ¬ resultBefore now y x := by
  rw [candLe, ← candBefore_iff now y x, Bool.eq_false_iff, Ne, Bool.not_eq_true]

instance candLeTotal (now : ℚ) : IsTotal Cand (candLe now) := by
  constructor
  intro x y
  rw [candLe_iff, candLe_iff]
  by_cases h : resultBefore now y x
  · exact Or.inr (resultBefore_asymm now y x h)
  · exact Or.inl h

instance candLeTrans (now : ℚ) : IsTrans Cand (candLe now) := by
  constructor
  intro x y z hxy hyz
  rw [candLe_iff] at hxy hyz ⊢
  intro hzx
  rcases resultBefore_total now z y with h | h | h
  · exact hyz h
  · exact hxy (resultBefore_trans now y z x h hzx)
  · apply hxy
    unfold resultBefore scoreLtR scoreEqR at hzx ⊢
    unfold scoreEqR at h
    rcases hzx with h' | ⟨hs', ht' | ⟨hts', hc'⟩⟩
    · exact Or.inl (by linarith [h.1])
    · exact Or.inr ⟨by linarith [h.1], Or.inl (by
        have := h.2.1
        linarith)⟩
    · exact Or.inr ⟨by linarith [h.1], Or.inr ⟨by
        have := h.2.1
        linarith, by
        have := h.2.2
        omega⟩⟩

/-- Modelled from the spec: the candidate set of a query — one candidate
per fragment of the fused score map, carrying its id, its timestamp and
its (positive) fused base score. -/
def candsOf (vecList kwList : List Nat) (tsOf : Nat → ℚ) : List Cand :=
  (rrfScores vecList kwList).pmap
    (fun (p : Nat × ℚ) (hp : 0 < p.2) => (⟨p.1, tsOf p.1, p.2, hp⟩ : Cand))
    (rrfScores_values_pos vecList kwList)

/-- Modelled from the spec: the default number of results returned. -/
def DEFAULT_LIMIT : Nat := 5

/-- Modelled from the spec: the hybrid search — fuse the two ranked
lists by RRF, sort the candidates by decayed score (ties by recency then
id) and return the top `limit`. -/
def hybridSearch (vecList kwList : List Nat) (tsOf : Nat → ℚ) (now : ℚ)
    (limit : Nat) : List Cand :=
  (List.insertionSort (candLe now) (candsOf vecList kwList tsOf)).take limit

theorem candsOf_mem (vecList kwList : List Nat) (tsOf : Nat → ℚ)
    (hv : vecList.Nodup) (hk : kwList.Nodup) (c : Cand)
    (hc : c ∈ candsOf vecList kwList tsOf) :
    (c.cid ∈ vecList ∨ c.cid ∈ kwList) ∧ c.cts = tsOf c.cid ∧
      c.base = rrfFrom vecList c.cid + rrfFrom kwList c.cid := by
  rw [candsOf, List.mem_pmap] at hc
  obtain ⟨p, hp, hfc⟩ := hc
  subst hfc
  have hkey : p.1 ∈ (rrfScores vecList kwList).map Prod.fst :=
    List.mem_map.mpr ⟨p, hp, rfl⟩
  have hmem := (rrfScores_keys_mem vecList kwList p.1).mp hkey
  refine ⟨hmem, rfl, ?_⟩
  have h1 : getScore (rrfScores vecList kwList) p.1 = p.2 :=
    getScore_of_mem _ _ _ (rrfScores_keys_nodup vecList kwList)
      (by rw [Prod.mk.eta]; exact hp)
  have h2 := rrfScores_getScore vecList kwList hv hk p.1 hmem
  rw [h1] at h2
  exact h2

theorem candsOf_map_cid (vecList kwList : List Nat) (tsOf : Nat → ℚ) :
    (candsOf vecList kwList tsOf).map Cand.cid =
      (rrfScores vecList kwList).map Prod.fst := by
  rw [candsOf, List.map_pmap]
  exact List.pmap_eq_map _ _ _ _

/-- C4: hybrid ranking — for a query whose vector and keyword rankings
are duplicate-free lists of fragment ids, every returned candidate's
base score is the sum over the lists containing it of `1 / (60 + r)`
(`r` its 1-indexed rank there, constant `k = 60`); the output is the
top-`DEFAULT_LIMIT = 5` of all fused fragments under the order "higher
decayed score `base * 2 ^ (-(now - timestamp) / 7)` first, ties broken
by more-recent timestamp then lower id": it has `min 5 (number of fused
fragments)` entries, distinct ids, is sorted by that order, and the
remaining fused fragments all rank no better than every returned one. -/
theorem hybridSearch_ranking_spec (vecList kwList : List Nat) (tsOf : Nat → ℚ)
    (now : ℚ) (hv : vecList.Nodup) (hk : kwList.Nodup) :
    (∀ c ∈ hybridSearch vecList kwList tsOf now DEFAULT_LIMIT,
        (c.cid ∈ vecList ∨ c.cid ∈ kwList) ∧ c.cts = tsOf c.cid ∧
          c.base = rrfFrom vecList c.cid + rrfFrom kwList c.cid) ∧
    (hybridSearch vecList kwList tsOf now DEFAULT_LIMIT).length
        = min DEFAULT_LIMIT (rrfScores vecList kwList).length ∧
    ((hybridSearch vecList kwList tsOf now DEFAULT_LIMIT).map Cand.cid).Nodup ∧
    (hybridSearch vecList kwList tsOf now DEFAULT_LIMIT).Pairwise
        (fun x y => ¬ resultBefore now y x) ∧
    ∃ rest : List Cand,
      ((hybridSearch vecList kwList tsOf now DEFAULT_LIMIT).map Cand.cid ++
          rest.map Cand.cid).Perm ((rrfScores vecList kwList).map Prod.fst) ∧
      ∀ x ∈ hybridSearch vecList kwList tsOf now DEFAULT_LIMIT, ∀ y ∈ rest,
        ¬ resultBefore now y x := by
  have hperm : (List.insertionSort (candLe now) (candsOf vecList kwList tsOf)).Perm
      (candsOf vecList kwList tsOf) := List.perm_insertionSort _ _
  have hsort : List.Pairwise (candLe now)
      (List.insertionSort (candLe now) (candsOf vecList kwList tsOf)) :=
    List.sorted_insertionSort _ _
  have hhs : hybridSearch vecList kwList tsOf now DEFAULT_LIMIT =
      List.take DEFAULT_LIMIT
        (List.insertionSort (candLe now) (candsOf vecList kwList tsOf)) := rfl
  refine ⟨?_, ?_, ?_, ?_, ?_⟩
  · intro c hc
    rw [hhs] at hc
    exact candsOf_mem vecList kwList tsOf hv hk c
      (hperm.mem_iff.mp (List.mem_of_mem_take hc))
  · rw [hhs, List.length_take, hperm.length_eq, candsOf, List.length_pmap]
  · have h1 : ((List.insertionSort (candLe now)
        (candsOf vecList kwList tsOf)).map Cand.cid).Perm
        ((rrfScores vecList kwList).map Prod.fst) := by
      rw [← candsOf_map_cid vecList kwList tsOf]
      exact hperm.map _
    have h2 := h1.nodup_iff.mpr (rrfScores_keys_nodup vecList kwList)
    rw [hhs, List.map_take]
    exact h2.sublist (List.take_sublist _ _)
  · rw [hhs]
    exact (List.Pairwise.sublist (List.take_sublist _ _) hsort).imp
      (fun h => (candLe_iff now _ _).mp h)
  · refine ⟨List.drop DEFAULT_LIMIT
      (List.insertionSort (candLe now) (candsOf vecList kwList tsOf)), ?_, ?_⟩
    · rw [hhs, ← List.map_append, List.take_append_drop,
        ← candsOf_map_cid vecList kwList tsOf]
      exact hperm.map _
    · intro x hx y hy
      rw [hhs] at hx
      have hpw : List.Pairwise (candLe now)
          (List.take DEFAULT_LIMIT
              (List.insertionSort (candLe now) (candsOf vecList kwList tsOf)) ++
            List.drop DEFAULT_LIMIT
              (List.insertionSort (candLe now) (candsOf vecList kwList tsOf))) := by
        rw [List.take_append_drop]
        exact hsort
      exact (candLe_iff now x y).mp ((List.pairwise_append.mp hpw).2.2 x hx y hy)

/-- Witness for C4: a concrete query with vector ranking `[1, 2]`,
keyword ranking `[2, 3]`, fragment `i` timestamped at day `i`, queried
at day 10. -/
theorem hybridSearch_ranking_spec_witness :
    ([1, 2] : List Nat).Nodup ∧ ([2, 3] : List Nat).Nodup ∧
    ((∀ c ∈ hybridSearch [1, 2] [2, 3] (fun i => (i : ℚ)) 10 DEFAULT_LIMIT,
        (c.cid ∈ ([1, 2] : List Nat) ∨ c.cid ∈ ([2, 3] : List Nat)) ∧
          c.cts = ((c.cid : ℚ)) ∧
          c.base = rrfFrom [1, 2] c.cid + rrfFrom [2, 3] c.cid) ∧
    (hybridSearch [1, 2] [2, 3] (fun i => (i : ℚ)) 10 DEFAULT_LIMIT).length
        = min DEFAULT_LIMIT (rrfScores [1, 2] [2, 3]).length ∧
    ((hybridSearch [1, 2] [2, 3] (fun i => (i : ℚ)) 10 DEFAULT_LIMIT).map
        Cand.cid).Nodup ∧
    (hybridSearch [1, 2] [2, 3] (fun i => (i : ℚ)) 10 DEFAULT_LIMIT).Pairwise
        (fun x y => ¬ resultBefore 10 y x) ∧
    ∃ rest : List Cand,
      ((hybridSearch [1, 2] [2, 3] (fun i => (i : ℚ)) 10 DEFAULT_LIMIT).map
            Cand.cid ++ rest.map Cand.cid).Perm
        ((rrfScores [1, 2] [2, 3]).map Prod.fst) ∧
      ∀ x ∈ hybridSearch [1, 2] [2, 3] (fun i => (i : ℚ)) 10 DEFAULT_LIMIT,
        ∀ y ∈ rest, ¬ resultBefore 10 y x) :=
  ⟨by decide, by decide,
    hybridSearch_ranking_spec [1, 2] [2, 3] (fun i => (i : ℚ)) 10
      (by decide) (by decide)⟩

end Cortex
